import Mathlib

/-!
Verification of the blob isolation and deskew pipeline.

The Rust sources are shallowly embedded here:
* images are dimensioned pixel grids given by a pixel function;
* machine integers (`u32`, `i32`) become `Nat`/`Int`, with fallible
  unsigned subtraction embedded through `Option` where the source would
  underflow;
* `f32` arithmetic is modelled exactly: integer-valued float pipelines
  over `Int`/`Rat`, and the trigonometric/perceptual computations over `Real`,
  with the `as u32` float-to-integer cast embedded as truncation.

External collaborators (connected-component labeling, hough line
detection, convex hull) are cut at their interface: the embedded
functions consume the collaborator output that the source passes to the
code under verification.
-/

/-- An 8-bit RGBA pixel value, from `image::Rgba<u8>`. -/
structure Rgba where
  r : ℕ
  g : ℕ
  b : ℕ
  a : ℕ
deriving DecidableEq, Repr

/-- Single-channel image (mask / component map), from `ImageBuffer<Luma<u8>, _>`:
dimensions plus a pixel lookup. -/
structure GrayImage where
  width : ℕ
  height : ℕ
  pix : ℕ → ℕ → ℕ

/-- The `enumerate_pixels()` order: row-major, x varying fastest. -/
def rowMajor (w h : ℕ) : List (ℕ × ℕ) :=
  (List.range h).flatMap (fun y => (List.range w).map (fun x => (x, y)))

/-- Checked `u32` subtraction: Rust `a - b` panics on underflow (debug
profile), embedded as `none`. -/
def checkedSub (a b : ℕ) : Option ℕ :=
  if b ≤ a then some (a - b) else none

/-- The `imageproc::rect::Rect` shape: `at(left, top).of_size(width, height)`. -/
structure Rect where
  left : ℤ
  top : ℤ
  width : ℕ
  height : ℕ
deriving DecidableEq, Repr

/-- Accumulator of `compute_bounding_box` (src/extractor/detection.rs):
`left`/`top` start at the image dimensions, `right`/`bottom` at 0. -/
structure BBoxAcc where
  left : ℕ
  top : ℕ
  right : ℕ
  bottom : ℕ
deriving DecidableEq, Repr

/-- One pixel of the scan loop of `compute_bounding_box`: black pixels are
skipped, any other pixel widens the extremes. -/
def bboxStep (img : GrayImage) (st : BBoxAcc) (c : ℕ × ℕ) : BBoxAcc :=
  if img.pix c.1 c.2 = 0 then st
  else
    { left := if c.1 < st.left then c.1 else st.left
      top := if c.2 < st.top then c.2 else st.top
      right := if c.1 > st.right then c.1 else st.right
      bottom := if c.2 > st.bottom then c.2 else st.bottom }

/-- Embeds `compute_bounding_box` (src/extractor/detection.rs, lines 18-49): scans
all pixels, then builds `Rect::at(left, top).of_size(right - left, bottom - top)`
with unsigned subtractions; the subtractions are embedded checked, so an
underflowing input yields `none`. -/
def compute_bounding_box (img : GrayImage) : Option Rect :=
  let st := (rowMajor img.width img.height).foldl (bboxStep img)
    ⟨img.width, img.height, 0, 0⟩
  match checkedSub st.right st.left, checkedSub st.bottom st.top with
  | some w, some h => some ⟨(st.left : ℤ), (st.top : ℤ), w, h⟩
  | _, _ => none

/-- All-background mask of the given size. -/
def zeroMask (w h : ℕ) : GrayImage :=
  ⟨w, h, fun _ _ => 0⟩

/-- The `put_pixel(x, y, Luma([255u8]))` write on a blob mask. -/
def blobPut (b : GrayImage) (x y : ℕ) : GrayImage :=
  ⟨b.width, b.height, fun i j => if i = x ∧ j = y then 255 else b.pix i j⟩

/-- One pixel of the `extract_blobs` loop (src/extractor/extraction.rs):
label 0 is skipped; `index = label - 1`; when `blobs.get_mut(index)` is
`None` one fresh full-size blob is pushed; then, when the (re-fetched)
entry exists, the pixel is painted 255.  `List.set` is the identity out of
range, exactly like the second failed `get_mut`. -/
def extractBlobsStep (w h : ℕ) (blobs : List GrayImage) (c : (ℕ × ℕ) × ℕ) :
    List GrayImage :=
  if c.2 = 0 then blobs
  else
    let index := c.2 - 1
    let blobs := if blobs.length ≤ index then blobs ++ [zeroMask w h] else blobs
    blobs.set index (blobPut (blobs.getD index (zeroMask w h)) c.1.1 c.1.2)

/-- The `enumerate_pixels()` stream of an image: coordinate plus pixel
value, in row-major order. -/
def pixelList (m : GrayImage) : List ((ℕ × ℕ) × ℕ) :=
  (rowMajor m.width m.height).map (fun c => (c, m.pix c.1 c.2))

/-- Embeds `extract_blobs` (src/extractor/extraction.rs, lines 6-31), taken at the
collaborator cut: the argument is the component map already produced by
`connected_components(…, Connectivity::Four, Luma([0u8]))`, and the result
is the blob list built by the enumeration loop. -/
def extract_blobs (componentMap : GrayImage) : List GrayImage :=
  (pixelList componentMap).foldl
    (extractBlobsStep componentMap.width componentMap.height) []

/-- The non-zero labels occurring in a component map. -/
def labelsOf (componentMap : GrayImage) : List ℕ :=
  ((rowMajor componentMap.width componentMap.height).map
      (fun c => componentMap.pix c.1 c.2)).filter (fun m => m ≠ 0)

/-- Pixel density, from `Dpi` (src/extractor/dpi.rs). -/
structure Dpi where
  x : ℕ
  y : ℕ
deriving DecidableEq, Repr

/-- Embeds `Dpi::x_in_meters`: `(self.x as f32 * 39.37) as u32`.  The float
product of a `u32` and the `f32` nearest 39.37 truncates (`as u32`) to
exactly `⌊x * 3937 / 100⌋` for all inputs relevant here (the f32 relative
rounding error is far below the distance to the neighbouring integers),
so the cast chain is embedded as exact rational truncation. -/
def Dpi.x_in_meters (d : Dpi) : ℕ :=
  d.x * 3937 / 100

/-- Embeds `Dpi::y_in_meters`: `(self.y as f32 * 39.37) as u32`. -/
def Dpi.y_in_meters (d : Dpi) : ℕ :=
  d.y * 3937 / 100

/-- Embeds `Dpi::from_centimeter`: `(v as f32 * 2.54) as u32` on both axes,
embedded as exact rational truncation. -/
def Dpi.from_centimeter (x y : ℕ) : Dpi :=
  ⟨x * 254 / 100, y * 254 / 100⟩

/-- pHYs pixels-per-unit written by `save_rgba_image_as` (src/io.rs,
lines 155-159): `xppu = (dpi as f32 * 39.37) as u32`, truncation embedded
as exact rational truncation. -/
def savedPpu (dpi : ℕ) : ℕ :=
  dpi * 3937 / 100

/-- Centimeter-unit EXIF resolution conversion of `read_dpi_from_exif`
(src/io.rs, lines 79-83): `(x_res as f32 * 2.54) as u32`. -/
def exifCmToDpi (v : ℕ) : ℕ :=
  v * 254 / 100

/-- The angle-folding map of `compute_deskew_angle_for_rectangle`
(src/extractor/detection.rs, lines 99-112): `if a > max_blob_rotation { a - 90 } else { a }`. -/
def foldAngle (maxRot a : ℤ) : ℤ :=
  if a > maxRot then a - 90 else a

/-- Embeds `compute_deskew_angle_for_rectangle` (src/extractor/detection.rs,
lines 64-131; the hardcoded variant is src/detection.rs lines 51-91 with
`maxRot = 10`, `maxLines = 4`), taken at the collaborator cut: the
argument list holds the `angle_in_degrees as i32` values of the lines the
hough collaborator detected, already strongest-first.  Truncation to
`max_lines`, double fold by 90, sort, median (mean of the two middle
entries when even), and sign inversion.  The `f32` median of integer
angles is exact, embedded in `ℚ`. -/
def compute_deskew_angle_for_rectangle (maxRot : ℤ) (maxLines : ℕ)
    (lineAngles : List ℤ) : ℚ :=
  if lineAngles.isEmpty then 0
  else
    let angles := (((lineAngles.take maxLines).map (foldAngle maxRot)).map
      (foldAngle maxRot)).insertionSort (· ≤ ·)
    let mid := angles.length / 2
    let angle : ℚ :=
      if angles.length % 2 = 0 then
        ((angles.getD (mid - 1) 0 : ℤ) + (angles.getD mid 0 : ℤ)) / 2
      else ((angles.getD mid 0 : ℤ) : ℚ)
    let inverted_angle := -angle
    inverted_angle

/-- Normalized sRGB triple, from `palette::Srgb<f32>`. -/
structure Srgb where
  red : ℝ
  green : ℝ
  blue : ℝ

/-- CIE Lab value, from `palette::Lab`. -/
structure Lab where
  l : ℝ
  a : ℝ
  b : ℝ

/-- Embeds `image_rgba_to_palette_srgb` (src/color_ops.rs, lines 29-35): divides
the R, G and B bytes by 255 and drops the alpha byte. -/
noncomputable def image_rgba_to_palette_srgb (color : Rgba) : Srgb :=
  ⟨(color.r : ℝ) / 255, (color.g : ℝ) / 255, (color.b : ℝ) / 255⟩

/-- Modelled from the spec: the sRGB inverse companding (decode to linear
light) applied by the palette collaborator when leaving `Srgb` — the
standard transfer function, linear below the 0.04045 threshold, power 2.4
above. -/
noncomputable def srgbLinearize (c : ℝ) : ℝ :=
  if c ≤ 0.04045 then c / 12.92 else ((c + 0.055) / 1.055) ^ (2.4 : ℝ)

/-- Modelled from the spec: the CIE Lab component function `f` used by the
palette collaborator — cube root above `(6/29)^3 = 216/24389`, linear
below, with the standard `κ = 24389/27`. -/
noncomputable def labF (t : ℝ) : ℝ :=
  if t > (216 / 24389 : ℝ) then t ^ ((1 : ℝ) / 3) else (24389 / 27 * t + 16) / 116

/-- Modelled from the spec: conversion of a normalized sRGB color into CIE
Lab by the palette collaborator (`Lab::from_color`): linearize the three
channels, apply the standard sRGB-primaries/D65 matrix to get XYZ, then
the Lab formulas with white point `(0.95047, 1, 1.08883)`. -/
noncomputable def labOfSrgb (c : Srgb) : Lab :=
  let r := srgbLinearize c.red
  let g := srgbLinearize c.green
  let b := srgbLinearize c.blue
  let X := 0.4124564 * r + 0.3575761 * g + 0.1804375 * b
  let Y := 0.2126729 * r + 0.7151522 * g + 0.0721750 * b
  let Z := 0.0193339 * r + 0.1191920 * g + 0.9503041 * b
  let fx := labF (X / 0.95047)
  let fy := labF (Y / 1)
  let fz := labF (Z / 1.08883)
  ⟨116 * fy - 16, 500 * (fx - fy), 200 * (fy - fz)⟩

/-- Embeds `color_similarity` (src/color_ops.rs, lines 15-26): Euclidean distance
of the two colors in Lab space. -/
noncomputable def color_similarity (a b : Srgb) : ℝ :=
  let lab_a := labOfSrgb a
  let lab_b := labOfSrgb b
  let delta_e :=
    (lab_a.l - lab_b.l) ^ 2 + (lab_a.a - lab_b.a) ^ 2 + (lab_a.b - lab_b.b) ^ 2
  Real.sqrt delta_e

/-- Integer pixel coordinate (`(i32, i32)` of the flood-fill stack). -/
abbrev Coord := ℤ × ℤ

/-- RGBA image: dimensions plus pixel lookup (`ImageBuffer<Rgba<u8>, _>`);
the lookup is total on `ℤ × ℤ` but the loop only reads it in bounds. -/
structure RgbaImage where
  width : ℕ
  height : ℕ
  pix : Coord → Rgba

/-- The four neighbour offsets pushed by `flood_fill`, in source order. -/
def directions : List Coord := [(0, 1), (1, 0), (0, -1), (-1, 0)]

/-- The in-bounds test of the flood-fill loop (negation of its skip test). -/
def inBounds (w h : ℕ) (c : Coord) : Prop :=
  0 ≤ c.1 ∧ c.1 < (w : ℤ) ∧ 0 ≤ c.2 ∧ c.2 < (h : ℤ)

instance (w h : ℕ) (c : Coord) : Decidable (inBounds w h c) := by
  unfold inBounds
  infer_instance

/-- Loop state of `flood_fill` (src/extractor/drawing.rs, lines 36-64):
pixel store, explicit stack (list head = vector top), visited set, plus a
ghost per-pixel counter of `put_pixel` calls used to state the
replaced-exactly-once property. -/
structure FFState where
  pix : Coord → Rgba
  stack : List Coord
  visited : Finset Coord
  writes : Coord → ℕ

/-- The push loop over the four directions: each push puts the
neighbour on top, so the last direction ends up topmost. -/
def pushNeighbors (c : Coord) (st : List Coord) : List Coord :=
  directions.foldl (fun acc d => (c + d) :: acc) st

/-- The fill test: the loop skips the pixel when
`color_similarity(current, target) > fuzz`. -/
noncomputable def floodMatch (target : Rgba) (fuzz : ℝ) (p : Rgba) : Prop :=
  ¬ color_similarity (image_rgba_to_palette_srgb p) (image_rgba_to_palette_srgb target) > fuzz

/-- The `while let Some((cx, cy)) = stack.pop()` loop of `flood_fill`,
fuelled.  Branch order follows the source: bounds test, visited test
(insertion happens only in bounds), similarity test against the current
pixel, then paint and push the four neighbours. -/
def ffRun (w h : ℕ) (matchP : Rgba → Prop) [DecidablePred matchP]
    (repl : Rgba) : ℕ → FFState → FFState
  | 0, s => s
  | n + 1, s =>
    match s.stack with
    | [] => s
    | c :: rest =>
      if ¬ inBounds w h c then
        ffRun w h matchP repl n { s with stack := rest }
      else if c ∈ s.visited then
        ffRun w h matchP repl n { s with stack := rest, visited := insert c s.visited }
      else if ¬ matchP (s.pix c) then
        ffRun w h matchP repl n { s with stack := rest, visited := insert c s.visited }
      else
        ffRun w h matchP repl n
          { pix := Function.update s.pix c repl
            stack := pushNeighbors c rest
            visited := insert c s.visited
            writes := Function.update s.writes c (s.writes c + 1) }

/-- All in-bounds coordinates, as a finite set. -/
def gridFinset (w h : ℕ) : Finset Coord :=
  (Finset.range w ×ˢ Finset.range h).image (fun p => ((p.1 : ℤ), (p.2 : ℤ)))

/-- The count of undiscovered in-bounds pixels. -/
def ffUndiscovered (w h : ℕ) (s : FFState) : ℕ :=
  ((gridFinset w h).filter (fun c => c ∉ s.visited)).card

/-- Termination measure of the loop: five per undiscovered in-bounds pixel
(a processed pixel pushes at most four neighbours) plus one per stack
entry. -/
def ffMeasure (w h : ℕ) (s : FFState) : ℕ :=
  5 * ffUndiscovered w h s + s.stack.length

/-- Initial loop state: original pixels, stack `[(x, y)]`, empty visited
set, no writes. -/
def ffInit (img : RgbaImage) (x y : ℤ) : FFState :=
  ⟨img.pix, [(x, y)], ∅, fun _ => 0⟩

open Classical in
/-- The final loop state of `flood_fill`, running the loop with enough
fuel for the measure. -/
noncomputable def floodFillRun (img : RgbaImage) (x y : ℤ)
    (target _replacement : Rgba) (fuzz : ℝ) : FFState :=
  ffRun img.width img.height (floodMatch target fuzz) _replacement
    (ffMeasure img.width img.height (ffInit img x y)) (ffInit img x y)

/-- Embeds `flood_fill` (src/extractor/drawing.rs, lines 28-65): the mutated
image after the loop drains its stack. -/
noncomputable def flood_fill (img : RgbaImage) (x y : ℤ)
    (target_color replacement_color : Rgba) (fuzz : ℝ) : RgbaImage :=
  ⟨img.width, img.height, (floodFillRun img x y target_color replacement_color fuzz).pix⟩

/-- Ghost observation: how many times `flood_fill` wrote each pixel. -/
noncomputable def floodFillWrites (img : RgbaImage) (x y : ℤ)
    (target_color replacement_color : Rgba) (fuzz : ℝ) : Coord → ℕ :=
  (floodFillRun img x y target_color replacement_color fuzz).writes

/-- A pixel is good when it is in bounds and its original color passes the
fill test. -/
def ffGood (w h : ℕ) (matchP : Rgba → Prop) (pix0 : Coord → Rgba)
    (c : Coord) : Prop :=
  inBounds w h c ∧ matchP (pix0 c)

/-- The 4-connected reachability from the seed through good pixels — the
specification-side notion the flood-fill loop is proved to compute. -/
inductive Reach (good : Coord → Prop) (seed : Coord) : Coord → Prop where
  | base : good seed → Reach good seed seed
  | step {p : Coord} (d : Coord) : Reach good seed p → d ∈ directions →
      good (p + d) → Reach good seed (p + d)

/-- Reachability of the flood fill on a concrete image: path from the seed
through in-bounds pixels whose original colors are within `fuzz` Lab
distance of the target color. -/
noncomputable def floodReach (img : RgbaImage) (x y : ℤ) (target : Rgba)
    (fuzz : ℝ) : Coord → Prop :=
  Reach (ffGood img.width img.height (floodMatch target fuzz) img.pix) (x, y)

/-! ### Termination of the flood-fill loop -/

theorem mem_gridFinset {w h : ℕ} {c : Coord} :
    c ∈ gridFinset w h ↔ inBounds w h c := by
  obtain ⟨x, y⟩ := c
  simp only [gridFinset, Finset.mem_image, Finset.mem_product, Finset.mem_range, inBounds,
    Prod.mk.injEq]
  constructor
  · rintro ⟨⟨i, j⟩, ⟨hi, hj⟩, hx, hy⟩
    dsimp only at hx hy
    subst hx
    subst hy
    refine ⟨Int.natCast_nonneg i, ?_, Int.natCast_nonneg j, ?_⟩
    · exact_mod_cast hi
    · exact_mod_cast hj
  · rintro ⟨h1, h2, h3, h4⟩
    refine ⟨⟨x.toNat, y.toNat⟩, ⟨?_, ?_⟩, ?_, ?_⟩
    · omega
    · omega
    · dsimp only
      rw [Int.toNat_of_nonneg h1]
    · dsimp only
      rw [Int.toNat_of_nonneg h3]

theorem pushNeighbors_eq (c : Coord) (st : List Coord) :
    pushNeighbors c st =
      (c + (-1, 0)) :: (c + (0, -1)) :: (c + (1, 0)) :: (c + (0, 1)) :: st := by
  simp [pushNeighbors, directions]

theorem mem_pushNeighbors {q c : Coord} {st : List Coord} :
    q ∈ pushNeighbors c st ↔ (∃ d ∈ directions, q = c + d) ∨ q ∈ st := by
  simp only [pushNeighbors_eq, List.mem_cons, directions]
  constructor
  · rintro (rfl | rfl | rfl | rfl | hq)
    · exact Or.inl ⟨(-1, 0), by simp, rfl⟩
    · exact Or.inl ⟨(0, -1), by simp, rfl⟩
    · exact Or.inl ⟨(1, 0), by simp, rfl⟩
    · exact Or.inl ⟨(0, 1), by simp, rfl⟩
    · exact Or.inr hq
  · rintro (⟨d, hd, rfl⟩ | hq)
    · simp only [List.mem_cons, List.not_mem_nil, or_false] at hd
      rcases hd with rfl | rfl | rfl | rfl <;> simp
    · simp [hq]

theorem ffRun_nil {w h : ℕ} {matchP : Rgba → Prop} [DecidablePred matchP]
    {repl : Rgba} {s : FFState} (hs : s.stack = []) (n : ℕ) :
    ffRun w h matchP repl n s = s := by
  cases n with
  | zero => rfl
  | succ n =>
    simp only [ffRun]
    rw [hs]

theorem ffUndiscovered_insert {w h : ℕ} {s : FFState} {c : Coord}
    (hc : inBounds w h c) (hv : c ∉ s.visited) (v' : FFState)
    (hvis : v'.visited = insert c s.visited) :
    ffUndiscovered w h v' + 1 = ffUndiscovered w h s := by
  unfold ffUndiscovered
  rw [hvis]
  have hfil : (gridFinset w h).filter (fun x => x ∉ insert c s.visited) =
      ((gridFinset w h).filter (fun x => x ∉ s.visited)).erase c := by
    ext x
    simp only [Finset.mem_filter, Finset.mem_erase, Finset.mem_insert]
    tauto
  rw [hfil]
  have hmem : c ∈ (gridFinset w h).filter (fun x => x ∉ s.visited) :=
    Finset.mem_filter.2 ⟨mem_gridFinset.2 hc, hv⟩
  rw [Finset.card_erase_of_mem hmem]
  have hpos : 1 ≤ ((gridFinset w h).filter (fun x => x ∉ s.visited)).card :=
    Finset.card_pos.2 ⟨c, hmem⟩
  omega

/-- With fuel at least the measure, the loop drains its stack. -/
theorem ffRun_stack_nil {w h : ℕ} {matchP : Rgba → Prop} [DecidablePred matchP]
    {repl : Rgba} :
    ∀ (n : ℕ) (s : FFState), ffMeasure w h s ≤ n →
      (ffRun w h matchP repl n s).stack = [] := by
  intro n
  induction n with
  | zero =>
    intro s hm
    have hlen : s.stack.length = 0 := by
      unfold ffMeasure at hm
      omega
    rw [ffRun_nil (List.length_eq_zero.1 hlen)]
    exact List.length_eq_zero.1 hlen
  | succ n ih =>
    intro s hm
    rcases hstack : s.stack with _ | ⟨c, rest⟩
    · rw [ffRun_nil hstack]
      exact hstack
    · have hmeas : 5 * ffUndiscovered w h s + (rest.length + 1) ≤ n + 1 := by
        unfold ffMeasure at hm
        rw [hstack] at hm
        simpa using hm
      simp only [ffRun]
      rw [hstack]
      by_cases hib : inBounds w h c
      · simp only [hib, not_true_eq_false, if_false]
        by_cases hv : c ∈ s.visited
        · simp only [hv, if_true]
          apply ih
          have hins : insert c s.visited = s.visited := Finset.insert_eq_self.2 hv
          have hmeq : ffMeasure w h
              { s with stack := rest, visited := insert c s.visited } =
              5 * ffUndiscovered w h s + rest.length := by
            unfold ffMeasure ffUndiscovered
            rw [show ({ s with stack := rest, visited := insert c s.visited } : FFState).visited
              = s.visited from hins]
          rw [hmeq]
          omega
        · simp only [hv, if_false]
          by_cases hmat : matchP (s.pix c)
          · simp only [hmat, not_true_eq_false, if_false]
            apply ih
            have hund : ffUndiscovered w h
                { pix := Function.update s.pix c repl,
                  stack := pushNeighbors c rest,
                  visited := insert c s.visited,
                  writes := Function.update s.writes c (s.writes c + 1) } + 1 =
                ffUndiscovered w h s :=
              ffUndiscovered_insert hib hv _ rfl
            have hpl : (pushNeighbors c rest).length = rest.length + 4 := by
              rw [pushNeighbors_eq]
              simp
            have hmeq : ffMeasure w h
                { pix := Function.update s.pix c repl,
                  stack := pushNeighbors c rest,
                  visited := insert c s.visited,
                  writes := Function.update s.writes c (s.writes c + 1) } =
                5 * (ffUndiscovered w h s - 1) + (rest.length + 4) := by
              unfold ffMeasure
              rw [hpl]
              omega
            rw [hmeq]
            omega
          · simp only [hmat, not_false_eq_true, if_true]
            apply ih
            have hund : ffUndiscovered w h
                { s with stack := rest, visited := insert c s.visited } + 1 =
                ffUndiscovered w h s :=
              ffUndiscovered_insert hib hv _ rfl
            have hmeq : ffMeasure w h
                { s with stack := rest, visited := insert c s.visited } =
                5 * (ffUndiscovered w h s - 1) + rest.length := by
              unfold ffMeasure
              have hsl : ({ s with stack := rest, visited := insert c s.visited } :
                  FFState).stack.length = rest.length := rfl
              rw [hsl]
              omega
            rw [hmeq]
            omega
      · simp only [hib, not_false_eq_true, if_true]
        apply ih
        have hmeq : ffMeasure w h { s with stack := rest } =
            5 * ffUndiscovered w h s + rest.length := rfl
        rw [hmeq]
        omega

/-- Extra fuel after the measure changes nothing. -/
theorem ffRun_add {w h : ℕ} {matchP : Rgba → Prop} [DecidablePred matchP]
    {repl : Rgba} :
    ∀ (n k : ℕ) (s : FFState),
      ffRun w h matchP repl (n + k) s =
        ffRun w h matchP repl k (ffRun w h matchP repl n s) := by
  intro n
  induction n with
  | zero =>
    intro k s
    rw [Nat.zero_add]
    rfl
  | succ n ih =>
    intro k s
    rcases hstack : s.stack with _ | ⟨c, rest⟩
    · rw [ffRun_nil hstack, ffRun_nil hstack, ffRun_nil hstack]
    · have hstep : n + 1 + k = (n + k) + 1 := by omega
      rw [hstep]
      simp only [ffRun]
      rw [hstack]
      by_cases hib : inBounds w h c
      · simp only [hib, not_true_eq_false, if_false]
        by_cases hv : c ∈ s.visited
        · simp only [hv, if_true]
          exact ih k _
        · simp only [hv, if_false]
          by_cases hmat : matchP (s.pix c)
          · simp only [hmat, not_true_eq_false, if_false]
            exact ih k _
          · simp only [hmat, not_false_eq_true, if_true]
            exact ih k _
      · simp only [hib, not_false_eq_true, if_true]
        exact ih k _

/-! ### Correctness of the flood-fill loop -/

/-- Every pixel on a reach path is good; in particular the target. -/
theorem Reach_good {good : Coord → Prop} {seed c : Coord}
    (hr : Reach good seed c) : good c := by
  cases hr with
  | base hg => exact hg
  | step d _ _ hg => exact hg

/-- Loop invariant of `flood_fill`, relative to the original pixel array
`pix0` and the seed.  A pixel is painted exactly when it is visited and
good (in bounds, original color passing the fill test). -/
structure FFInv (w h : ℕ) (matchP : Rgba → Prop) (repl : Rgba)
    (pix0 : Coord → Rgba) (seed : Coord) (s : FFState) : Prop where
  vis_inb : ∀ c ∈ s.visited, inBounds w h c
  pix_painted : ∀ c, c ∈ s.visited → ffGood w h matchP pix0 c → s.pix c = repl
  pix_clean : ∀ c, c ∉ s.visited ∨ ¬ ffGood w h matchP pix0 c → s.pix c = pix0 c
  writes_painted : ∀ c, c ∈ s.visited → ffGood w h matchP pix0 c → s.writes c = 1
  writes_clean : ∀ c, c ∉ s.visited ∨ ¬ ffGood w h matchP pix0 c → s.writes c = 0
  reach_painted : ∀ c, c ∈ s.visited → ffGood w h matchP pix0 c →
    Reach (ffGood w h matchP pix0) seed c
  stack_src : ∀ q ∈ s.stack, q = seed ∨
    ∃ p, (p ∈ s.visited ∧ ffGood w h matchP pix0 p) ∧ ∃ d ∈ directions, q = p + d
  closed : ∀ p, p ∈ s.visited → ffGood w h matchP pix0 p →
    ∀ d ∈ directions, ffGood w h matchP pix0 (p + d) →
      (p + d) ∈ s.visited ∨ (p + d) ∈ s.stack
  seed_mem : ffGood w h matchP pix0 seed → seed ∈ s.visited ∨ seed ∈ s.stack

theorem card_filter_insert {w h : ℕ} {v : Finset Coord} {c : Coord}
    (hc : inBounds w h c) (hv : c ∉ v) :
    ((gridFinset w h).filter (fun x => x ∉ insert c v)).card + 1 =
      ((gridFinset w h).filter (fun x => x ∉ v)).card := by
  have hfil : (gridFinset w h).filter (fun x => x ∉ insert c v) =
      ((gridFinset w h).filter (fun x => x ∉ v)).erase c := by
    ext x
    simp only [Finset.mem_filter, Finset.mem_erase, Finset.mem_insert]
    tauto
  rw [hfil]
  have hmem : c ∈ (gridFinset w h).filter (fun x => x ∉ v) :=
    Finset.mem_filter.2 ⟨mem_gridFinset.2 hc, hv⟩
  rw [Finset.card_erase_of_mem hmem]
  have hpos : 1 ≤ ((gridFinset w h).filter (fun x => x ∉ v)).card :=
    Finset.card_pos.2 ⟨c, hmem⟩
  omega

theorem ffMeasure_mk (w h : ℕ) (p : Coord → Rgba) (st : List Coord)
    (v : Finset Coord) (wr : Coord → ℕ) :
    ffMeasure w h ⟨p, st, v, wr⟩ =
      5 * ((gridFinset w h).filter (fun c => c ∉ v)).card + st.length := rfl

/-- The loop preserves the invariant with any fuel. -/
theorem ffRun_inv {w h : ℕ} {matchP : Rgba → Prop} [DecidablePred matchP]
    {repl : Rgba} {pix0 : Coord → Rgba} {seed : Coord} :
    ∀ (n : ℕ) (s : FFState),
      FFInv w h matchP repl pix0 seed s →
      FFInv w h matchP repl pix0 seed (ffRun w h matchP repl n s) := by
  intro n
  induction n with
  | zero =>
    intro s hinv
    exact hinv
  | succ n ih =>
    rintro ⟨spix, sstack, svis, swr⟩ hinv
    rcases sstack with _ | ⟨c, rest⟩
    · exact hinv
    · have hmemc : c ∈ (⟨spix, c :: rest, svis, swr⟩ : FFState).stack :=
        List.mem_cons_self c rest
      simp only [ffRun]
      by_cases hib : inBounds w h c
      · simp only [hib, not_true_eq_false, if_false]
        by_cases hv : c ∈ svis
        · -- already visited: drop from the stack
          simp only [hv, if_true]
          refine ih _ ?_
          have hins : insert c svis = svis := Finset.insert_eq_self.2 hv
          rw [hins]
          obtain ⟨vis_inb, pp, pc, wp, wc, rp, ss, cl, sm⟩ := hinv
          refine ⟨vis_inb, pp, pc, wp, wc, rp, ?_, ?_, ?_⟩
          · intro q hq
            exact ss q (List.mem_cons_of_mem c hq)
          · intro p hp hgp d hd hgq
            rcases cl p hp hgp d hd hgq with hvq | hsq
            · exact Or.inl hvq
            · rcases List.mem_cons.1 hsq with rfl | hr
              · exact Or.inl hv
              · exact Or.inr hr
          · intro hgs
            rcases sm hgs with hvs | hss
            · exact Or.inl hvs
            · rcases List.mem_cons.1 hss with rfl | hr
              · exact Or.inl hv
              · exact Or.inr hr
        · simp only [hv, if_false]
          have hpix0 : spix c = pix0 c := hinv.pix_clean c (Or.inl hv)
          by_cases hmat : matchP (spix c)
          · -- paint the pixel and push its neighbours
            simp only [hmat, not_true_eq_false, if_false]
            have hgc : ffGood w h matchP pix0 c := ⟨hib, by rw [← hpix0]; exact hmat⟩
            have hreach : Reach (ffGood w h matchP pix0) seed c := by
              rcases hinv.stack_src c hmemc with rfl | ⟨p, ⟨hpv, hgp⟩, d, hd, rfl⟩
              · exact Reach.base hgc
              · exact Reach.step d (hinv.reach_painted p hpv hgp) hd hgc
            refine ih _ ?_
            obtain ⟨vis_inb, pp, pc, wp, wc, rp, ss, cl, sm⟩ := hinv
            refine ⟨?_, ?_, ?_, ?_, ?_, ?_, ?_, ?_, ?_⟩
            · intro c' hc'
              rcases Finset.mem_insert.1 hc' with rfl | hold
              · exact hib
              · exact vis_inb c' hold
            · intro c' hc' hgc'
              by_cases hcc : c' = c
              · subst hcc
                simp [Function.update_same]
              · show Function.update spix c repl c' = repl
                rw [Function.update_noteq hcc]
                exact pp c' ((Finset.mem_insert.1 hc').resolve_left hcc) hgc'
            · intro c' hc'
              have hcc : c' ≠ c := by
                rintro rfl
                rcases hc' with hni | hng
                · exact hni (Finset.mem_insert_self c' svis)
                · exact hng hgc
              show Function.update spix c repl c' = pix0 c'
              rw [Function.update_noteq hcc]
              refine pc c' ?_
              rcases hc' with hni | hng
              · exact Or.inl (fun hmem => hni (Finset.mem_insert_of_mem hmem))
              · exact Or.inr hng
            · intro c' hc' hgc'
              by_cases hcc : c' = c
              · subst hcc
                show Function.update swr c' (swr c' + 1) c' = 1
                rw [Function.update_same]
                have hz : swr c' = 0 := wc c' (Or.inl hv)
                omega
              · show Function.update swr c (swr c + 1) c' = 1
                rw [Function.update_noteq hcc]
                exact wp c' ((Finset.mem_insert.1 hc').resolve_left hcc) hgc'
            · intro c' hc'
              have hcc : c' ≠ c := by
                rintro rfl
                rcases hc' with hni | hng
                · exact hni (Finset.mem_insert_self c' svis)
                · exact hng hgc
              show Function.update swr c (swr c + 1) c' = 0
              rw [Function.update_noteq hcc]
              refine wc c' ?_
              rcases hc' with hni | hng
              · exact Or.inl (fun hmem => hni (Finset.mem_insert_of_mem hmem))
              · exact Or.inr hng
            · intro c' hc' hgc'
              rcases Finset.mem_insert.1 hc' with rfl | hold
              · exact hreach
              · exact rp c' hold hgc'
            · intro q hq
              rcases mem_pushNeighbors.1 hq with ⟨d, hd, rfl⟩ | hqr
              · exact Or.inr ⟨c, ⟨Finset.mem_insert_self c svis, hgc⟩, d, hd, rfl⟩
              · rcases ss q (List.mem_cons_of_mem c hqr) with
                  rfl | ⟨p, ⟨hpv, hgp⟩, d, hd, rfl⟩
                · exact Or.inl rfl
                · exact Or.inr ⟨p, ⟨Finset.mem_insert_of_mem hpv, hgp⟩, d, hd, rfl⟩
            · intro p hp hgp d hd hgq
              rcases Finset.mem_insert.1 hp with rfl | hold
              · exact Or.inr (mem_pushNeighbors.2 (Or.inl ⟨d, hd, rfl⟩))
              · rcases cl p hold hgp d hd hgq with hvq | hsq
                · exact Or.inl (Finset.mem_insert_of_mem hvq)
                · rcases List.mem_cons.1 hsq with heq | hr
                  · rw [heq]
                    exact Or.inl (Finset.mem_insert_self c svis)
                  · exact Or.inr (mem_pushNeighbors.2 (Or.inr hr))
            · intro hgs
              rcases sm hgs with hvs | hss
              · exact Or.inl (Finset.mem_insert_of_mem hvs)
              · rcases List.mem_cons.1 hss with rfl | hr
                · exact Or.inl (Finset.mem_insert_self seed svis)
                · exact Or.inr (mem_pushNeighbors.2 (Or.inr hr))
          · -- in bounds, fresh, but not matching: mark visited only
            simp only [hmat, not_false_eq_true, if_true]
            have hgc : ¬ ffGood w h matchP pix0 c := by
              rintro ⟨_, hmc⟩
              exact hmat (by rw [hpix0]; exact hmc)
            refine ih _ ?_
            obtain ⟨vis_inb, pp, pc, wp, wc, rp, ss, cl, sm⟩ := hinv
            refine ⟨?_, ?_, ?_, ?_, ?_, ?_, ?_, ?_, ?_⟩
            · intro c' hc'
              rcases Finset.mem_insert.1 hc' with rfl | hold
              · exact hib
              · exact vis_inb c' hold
            · intro c' hc' hgc'
              rcases Finset.mem_insert.1 hc' with rfl | hold
              · exact absurd hgc' hgc
              · exact pp c' hold hgc'
            · intro c' hc'
              refine pc c' ?_
              rcases hc' with hni | hng
              · by_cases hcc : c' = c
                · subst hcc
                  exact Or.inr hgc
                · exact Or.inl (fun hmem => hni (Finset.mem_insert_of_mem hmem))
              · exact Or.inr hng
            · intro c' hc' hgc'
              rcases Finset.mem_insert.1 hc' with rfl | hold
              · exact absurd hgc' hgc
              · exact wp c' hold hgc'
            · intro c' hc'
              refine wc c' ?_
              rcases hc' with hni | hng
              · by_cases hcc : c' = c
                · subst hcc
                  exact Or.inr hgc
                · exact Or.inl (fun hmem => hni (Finset.mem_insert_of_mem hmem))
              · exact Or.inr hng
            · intro c' hc' hgc'
              rcases Finset.mem_insert.1 hc' with rfl | hold
              · exact absurd hgc' hgc
              · exact rp c' hold hgc'
            · intro q hq
              rcases ss q (List.mem_cons_of_mem c hq) with
                rfl | ⟨p, ⟨hpv, hgp⟩, d, hd, rfl⟩
              · exact Or.inl rfl
              · exact Or.inr ⟨p, ⟨Finset.mem_insert_of_mem hpv, hgp⟩, d, hd, rfl⟩
            · intro p hp hgp d hd hgq
              rcases Finset.mem_insert.1 hp with rfl | hold
              · exact absurd hgp hgc
              · rcases cl p hold hgp d hd hgq with hvq | hsq
                · exact Or.inl (Finset.mem_insert_of_mem hvq)
                · rcases List.mem_cons.1 hsq with heq | hr
                  · rw [heq]
                    exact Or.inl (Finset.mem_insert_self c svis)
                  · exact Or.inr hr
            · intro hgs
              rcases sm hgs with hvs | hss
              · exact Or.inl (Finset.mem_insert_of_mem hvs)
              · rcases List.mem_cons.1 hss with rfl | hr
                · exact absurd hgs hgc
                · exact Or.inr hr
      · -- out of bounds: just drop the coordinate
        simp only [hib, not_false_eq_true, if_true]
        refine ih _ ?_
        obtain ⟨vis_inb, pp, pc, wp, wc, rp, ss, cl, sm⟩ := hinv
        refine ⟨vis_inb, pp, pc, wp, wc, rp, ?_, ?_, ?_⟩
        · intro q hq
          exact ss q (List.mem_cons_of_mem c hq)
        · intro p hp hgp d hd hgq
          rcases cl p hp hgp d hd hgq with hvq | hsq
          · exact Or.inl hvq
          · rcases List.mem_cons.1 hsq with heq | hr
            · exact absurd (heq ▸ hgq).1 hib
            · exact Or.inr hr
        · intro hgs
          rcases sm hgs with hvs | hss
          · exact Or.inl hvs
          · rcases List.mem_cons.1 hss with rfl | hr
            · exact absurd hgs.1 hib
            · exact Or.inr hr

/-- At a drained state, every reachable pixel has been discovered. -/
theorem FFInv.reach_visited {w h : ℕ} {matchP : Rgba → Prop} {repl : Rgba}
    {pix0 : Coord → Rgba} {seed : Coord} {t : FFState}
    (hinv : FFInv w h matchP repl pix0 seed t) (hnil : t.stack = []) :
    ∀ c, Reach (ffGood w h matchP pix0) seed c → c ∈ t.visited := by
  intro c hr
  induction hr with
  | base hg =>
    rcases hinv.seed_mem hg with hvs | hss
    · exact hvs
    · rw [hnil] at hss
      exact absurd hss (List.not_mem_nil _)
  | step d hp hd hg ihp =>
    rcases hinv.closed _ ihp (Reach_good hp) d hd hg with hvq | hsq
    · exact hvq
    · rw [hnil] at hsq
      exact absurd hsq (List.not_mem_nil _)

/-- Full characterization of a drained run started from a fresh seed
state: reachable pixels hold the replacement color and were written once,
all others hold their original color and were never written. -/
theorem ffRun_correct {w h : ℕ} {matchP : Rgba → Prop} [DecidablePred matchP]
    (repl : Rgba) (pix0 : Coord → Rgba) (seed : Coord) (n : ℕ)
    (hn : ffMeasure w h (⟨pix0, [seed], ∅, fun _ => 0⟩ : FFState) ≤ n) :
    (∀ c, Reach (ffGood w h matchP pix0) seed c →
      (ffRun w h matchP repl n ⟨pix0, [seed], ∅, fun _ => 0⟩).pix c = repl ∧
      (ffRun w h matchP repl n ⟨pix0, [seed], ∅, fun _ => 0⟩).writes c = 1) ∧
    (∀ c, ¬ Reach (ffGood w h matchP pix0) seed c →
      (ffRun w h matchP repl n ⟨pix0, [seed], ∅, fun _ => 0⟩).pix c = pix0 c ∧
      (ffRun w h matchP repl n ⟨pix0, [seed], ∅, fun _ => 0⟩).writes c = 0) := by
  have hinv0 : FFInv w h matchP repl pix0 seed ⟨pix0, [seed], ∅, fun _ => 0⟩ := by
    refine ⟨?_, ?_, ?_, ?_, ?_, ?_, ?_, ?_, ?_⟩
    · intro c hc
      exact absurd hc (Finset.not_mem_empty c)
    · intro c hc
      exact absurd hc (Finset.not_mem_empty c)
    · intro c _
      rfl
    · intro c hc
      exact absurd hc (Finset.not_mem_empty c)
    · intro c _
      rfl
    · intro c hc
      exact absurd hc (Finset.not_mem_empty c)
    · intro q hq
      exact Or.inl (List.mem_singleton.1 hq)
    · intro p hp
      exact absurd hp (Finset.not_mem_empty p)
    · intro _
      exact Or.inr (List.mem_singleton.2 rfl)
  have hinv := ffRun_inv n _ hinv0
  have hnil : (ffRun w h matchP repl n ⟨pix0, [seed], ∅, fun _ => 0⟩).stack = [] :=
    ffRun_stack_nil n _ hn
  constructor
  · intro c hr
    have hvc := hinv.reach_visited hnil c hr
    exact ⟨hinv.pix_painted c hvc (Reach_good hr),
      hinv.writes_painted c hvc (Reach_good hr)⟩
  · intro c hr
    have hor : c ∉ (ffRun w h matchP repl n ⟨pix0, [seed], ∅, fun _ => 0⟩).visited ∨
        ¬ ffGood w h matchP pix0 c := by
      by_contra hcon
      push_neg at hcon
      exact hr (hinv.reach_painted c hcon.1 hcon.2)
    exact ⟨hinv.pix_clean c hor, hinv.writes_clean c hor⟩

/-- The flood-fill characterization at the level of `flood_fill`:
reachable pixels are replaced and written exactly once, all other pixels
keep their original value and are never written. -/
theorem floodFillCharacterization (img : RgbaImage) (x y : ℤ)
    (target repl : Rgba) (fuzz : ℝ) :
    (∀ c, floodReach img x y target fuzz c →
      (flood_fill img x y target repl fuzz).pix c = repl ∧
      floodFillWrites img x y target repl fuzz c = 1) ∧
    (∀ c, ¬ floodReach img x y target fuzz c →
      (flood_fill img x y target repl fuzz).pix c = img.pix c ∧
      floodFillWrites img x y target repl fuzz c = 0) := by
  classical
  unfold flood_fill floodFillWrites floodFillRun floodReach ffInit
  exact ffRun_correct repl img.pix (x, y) _ (le_refl _)

/-- A nonempty reach forces the seed itself to be good. -/
theorem Reach_seed {good : Coord → Prop} {seed c : Coord}
    (h : Reach good seed c) : good seed := by
  induction h with
  | base hg => exact hg
  | step d _ _ _ ih => exact ih

/-- Dimensions survive `flood_fill`. -/
theorem flood_fill_width (img : RgbaImage) (x y : ℤ) (t r : Rgba) (f : ℝ) :
    (flood_fill img x y t r f).width = img.width := rfl

/-- Dimensions survive `flood_fill`. -/
theorem flood_fill_height (img : RgbaImage) (x y : ℤ) (t r : Rgba) (f : ℝ) :
    (flood_fill img x y t r f).height = img.height := rfl

/-- A second run of `flood_fill` reaches at most what the first did. -/
theorem floodReach_of_filled (img : RgbaImage) (x y : ℤ)
    (target repl : Rgba) (fuzz : ℝ) (c : Coord)
    (hr : floodReach (flood_fill img x y target repl fuzz) x y target fuzz c) :
    floodReach img x y target fuzz c := by
  classical
  have hchar := floodFillCharacterization img x y target repl fuzz
  unfold floodReach at hr ⊢
  induction hr with
  | base hg =>
    by_cases h1 : floodReach img x y target fuzz (x, y)
    · exact h1
    · have heq := (hchar.2 (x, y) h1).1
      exact Reach.base ⟨hg.1, by rw [← heq]; exact hg.2⟩
  | @step p d hp hd hg ihp =>
    by_cases h1 : floodReach img x y target fuzz (p + d)
    · exact h1
    · have heq := (hchar.2 (p + d) h1).1
      exact Reach.step d ihp hd ⟨hg.1, by rw [← heq]; exact hg.2⟩

/-- When the replacement color itself fails the fill test, a second run
reaches nothing at all. -/
theorem floodReach_of_filled_none (img : RgbaImage) (x y : ℤ)
    (target repl : Rgba) (fuzz : ℝ)
    (hrep : ¬ floodMatch target fuzz repl) (c : Coord)
    (hr : floodReach (flood_fill img x y target repl fuzz) x y target fuzz c) :
    False := by
  classical
  have hchar := floodFillCharacterization img x y target repl fuzz
  have hseed : ffGood img.width img.height (floodMatch target fuzz)
      (flood_fill img x y target repl fuzz).pix (x, y) := Reach_seed hr
  by_cases h1 : floodReach img x y target fuzz (x, y)
  · have heq := (hchar.1 (x, y) h1).1
    exact hrep (by rw [← heq]; exact hseed.2)
  · have heq := (hchar.2 (x, y) h1).1
    exact h1 (Reach.base ⟨hseed.1, by rw [← heq]; exact hseed.2⟩)

/-- Idempotence of `flood_fill`, as an auxiliary lemma. -/
theorem flood_fill_idem_aux (img : RgbaImage) (x y : ℤ)
    (target repl : Rgba) (fuzz : ℝ) :
    flood_fill (flood_fill img x y target repl fuzz) x y target repl fuzz =
      flood_fill img x y target repl fuzz := by
  classical
  have hchar := floodFillCharacterization img x y target repl fuzz
  have hchar2 := floodFillCharacterization (flood_fill img x y target repl fuzz)
    x y target repl fuzz
  have hpix : ∀ c,
      (flood_fill (flood_fill img x y target repl fuzz) x y target repl fuzz).pix c =
        (flood_fill img x y target repl fuzz).pix c := by
    intro c
    by_cases hrep : floodMatch target fuzz repl
    · by_cases h2 : floodReach (flood_fill img x y target repl fuzz) x y target fuzz c
      · have h1 := floodReach_of_filled img x y target repl fuzz c h2
        rw [(hchar2.1 c h2).1, (hchar.1 c h1).1]
      · exact (hchar2.2 c h2).1
    · by_cases h2 : floodReach (flood_fill img x y target repl fuzz) x y target fuzz c
      · exact absurd h2 (floodReach_of_filled_none img x y target repl fuzz hrep c)
      · exact (hchar2.2 c h2).1
  have hfun : (flood_fill (flood_fill img x y target repl fuzz) x y target repl fuzz).pix =
      (flood_fill img x y target repl fuzz).pix := funext hpix
  show RgbaImage.mk _ _ _ = flood_fill img x y target repl fuzz
  rw [show flood_fill img x y target repl fuzz =
    ⟨(flood_fill img x y target repl fuzz).width,
     (flood_fill img x y target repl fuzz).height,
     (flood_fill img x y target repl fuzz).pix⟩ from rfl]
  exact congrArg _ hfun

/-! ### Strategy B: convex-hull triangulation (src/detection.rs) -/

/-- An `imageproc::point::Point<u32>` coordinate. -/
structure Pt where
  x : ℕ
  y : ℕ
deriving DecidableEq, Repr

/-- One iteration of the extremal-point scan of
`compute_skew_angle_and_rotation_center` (src/detection.rs, lines
120-143), with the source's exact update order and tie-breaks.  The
state is `(leftmost, rightmost, topmost, bottommost)`. -/
def stepExtremal (st : Pt × Pt × Pt × Pt) (p : Pt) : Pt × Pt × Pt × Pt :=
  let lm := st.1
  let rm := st.2.1
  let tm := st.2.2.1
  let bm := st.2.2.2
  let lm := if p.x < lm.x then p else lm
  let lm := if p.x = lm.x ∧ p.y < lm.y then p else lm
  let rm := if p.x > rm.x then p else rm
  let tm := if p.y < tm.y then p else tm
  let tm := if p.y = tm.y ∧ p.x < tm.x then p else tm
  let bm := if p.y > bm.y then p else bm
  let bm := if p.y = bm.y ∧ p.x < bm.x then p else bm
  (lm, rm, tm, bm)

/-- The triangle choice of `compute_skew_angle_and_rotation_center`
(src/detection.rs, lines 158-173): the top triangle with direction
factor −1 when the top vertical leg (`leftmost.y - topmost.y`, a `u32`
difference) is strictly longer than the bottom one
(`bottommost.y - leftmost.y`); otherwise the bottom triangle with factor
+1.  Returns `(direction_factor, a, b)` with the two `f32` legs. -/
def chooseTriangle (leftmost topmost bottommost : Pt) : ℝ × ℝ × ℝ :=
  if leftmost.y - topmost.y > bottommost.y - leftmost.y then
    (-1, (topmost.x : ℝ) - (leftmost.x : ℝ), (leftmost.y : ℝ) - (topmost.y : ℝ))
  else
    (1, (bottommost.x : ℝ) - (leftmost.x : ℝ), (bottommost.y : ℝ) - (leftmost.y : ℝ))

/-- Modelled from the spec, for comparison with `chooseTriangle`: the
choice step 4 of Strategy B describes — "Choose the triangle whose
vertical leg is shorter", direction factor −1 for the top-triangle case
and +1 for the bottom case (bottom also on ties, as in the source). -/
def chooseTriangleSpec (leftmost topmost bottommost : Pt) : ℝ × ℝ × ℝ :=
  if leftmost.y - topmost.y < bottommost.y - leftmost.y then
    (-1, (topmost.x : ℝ) - (leftmost.x : ℝ), (leftmost.y : ℝ) - (topmost.y : ℝ))
  else
    (1, (bottommost.x : ℝ) - (leftmost.x : ℝ), (bottommost.y : ℝ) - (leftmost.y : ℝ))

open Classical in
/-- Embeds `compute_skew_angle_and_rotation_center` (src/detection.rs, lines
97-201), taken at the collaborator cut: the argument is the convex hull
point list the `imageproc` collaborator computed from the contour.  With
fewer than 2 points the angle is 0 and the center is the image center;
otherwise the extremal points are scanned, a triangle is chosen, the
smaller `asin` angle is converted to degrees, signed, and clamped to 0
outside (−10, 10); the center is that of the rectangle spanned by the
extremal points.

When the chosen triangle is degenerate — both legs zero, so `c = 0`,
which is reachable, e.g. from the two-point hull of a 1-pixel-tall blob,
whose tie-breaks make leftmost = topmost = bottommost — the source
computes `0.0 / 0.0 = NaN` at lines 176-178; `asin(NaN) = NaN`, every
comparison with NaN is false, so `smallest_angle` is NaN, the clamp at
line 188 does not fire, and the returned `f32` angle is NaN.  The NaN
angle is modeled as `none`, a numeric angle as `some`; on the numeric
path (`c ≠ 0`, where the `f32` legs are integer-valued so `c` is zero
exactly when both legs are) the arithmetic is the exact-real model. -/
noncomputable def compute_skew_angle_and_rotation_center
    (points : List Pt) (width height : ℕ) : Option ℝ × Pt :=
  match points with
  | [] => (some 0, ⟨0 + width / 2, 0 + height / 2⟩)
  | p0 :: rest =>
    if (p0 :: rest).length < 2 then (some 0, ⟨0 + width / 2, 0 + height / 2⟩)
    else
      let ex := rest.foldl stepExtremal (p0, p0, p0, p0)
      let leftmost := ex.1
      let rightmost := ex.2.1
      let topmost := ex.2.2.1
      let bottommost := ex.2.2.2
      let t := chooseTriangle leftmost topmost bottommost
      let direction_factor := t.1
      let a := t.2.1
      let b := t.2.2
      let c := Real.sqrt (a ^ 2 + b ^ 2)
      let center : Pt := ⟨leftmost.x + (rightmost.x - leftmost.x) / 2,
        topmost.y + (bottommost.y - topmost.y) / 2⟩
      if c = 0 then (none, center)
      else
        let angle1_rad := Real.arcsin (a / c)
        let angle2_rad := Real.arcsin (b / c)
        let smallest_angle := if angle1_rad < angle2_rad then angle1_rad else angle2_rad
        let angle := smallest_angle * 180 / Real.pi
        let angle := angle * direction_factor
        let angle := if angle > 10 ∨ angle < -10 then 0 else angle
        (some angle, center)

/-- The final clamp of Strategy B keeps the angle inside [−10, 10]. -/
theorem clamp_abs_le (x : ℝ) : |if x > 10 ∨ x < -10 then (0 : ℝ) else x| ≤ 10 := by
  by_cases h : x > 10 ∨ x < -10
  · simp [h]
  · push_neg at h
    rw [if_neg (by push_neg; exact h)]
    exact abs_le.2 ⟨h.2, h.1⟩

/-! ### Color distance: symmetry and definiteness -/

/-- The two decode branches do not overlap: the linear branch tops out
strictly below the power branch at the 0.04045 threshold (an exact
rational comparison after clearing the 2.4 = 12/5 exponent). -/
theorem srgb_branch_gap :
    (0.04045 / 12.92 : ℝ) < ((0.09545 / 1.055 : ℝ)) ^ (2.4 : ℝ) := by
  have ht0 : (0 : ℝ) ≤ 0.09545 / 1.055 := by norm_num
  have h5 : (((0.09545 / 1.055 : ℝ)) ^ (2.4 : ℝ)) ^ (5 : ℕ) =
      ((0.09545 / 1.055 : ℝ)) ^ (12 : ℕ) := by
    rw [← Real.rpow_natCast (((0.09545 / 1.055 : ℝ)) ^ (2.4 : ℝ)) 5,
      ← Real.rpow_mul ht0]
    norm_num
  have hlt : ((0.04045 / 12.92 : ℝ)) ^ (5 : ℕ) <
      ((0.09545 / 1.055 : ℝ)) ^ (12 : ℕ) := by
    norm_num
  rw [← h5] at hlt
  exact lt_of_pow_lt_pow_left₀ 5 (Real.rpow_nonneg ht0 _) hlt

/-- The sRGB decode (inverse companding) is strictly increasing. -/
theorem srgbLinearize_strictMono : StrictMono srgbLinearize := by
  intro c1 c2 hlt
  unfold srgbLinearize
  by_cases h1 : c1 ≤ 0.04045
  · by_cases h2 : c2 ≤ 0.04045
    · rw [if_pos h1, if_pos h2]
      exact (div_lt_div_iff_of_pos_right (by norm_num)).2 hlt
    · rw [if_pos h1, if_neg h2]
      push_neg at h2
      have ht2 : (0.09545 / 1.055 : ℝ) < (c2 + 0.055) / 1.055 :=
        (div_lt_div_iff_of_pos_right (by norm_num)).2 (by linarith)
      have hmono : ((0.09545 / 1.055 : ℝ)) ^ (2.4 : ℝ) <
          ((c2 + 0.055) / 1.055) ^ (2.4 : ℝ) :=
        Real.rpow_lt_rpow (by norm_num) ht2 (by norm_num)
      have hc1 : c1 / 12.92 ≤ 0.04045 / 12.92 :=
        (div_le_div_iff_of_pos_right (by norm_num)).2 h1
      have := srgb_branch_gap
      linarith
  · have h2 : ¬ c2 ≤ 0.04045 := fun hc2 => h1 (le_of_lt (lt_of_lt_of_le hlt hc2))
    rw [if_neg h1, if_neg h2]
    push_neg at h1
    refine Real.rpow_lt_rpow ?_ ((div_lt_div_iff_of_pos_right (by norm_num)).2 (by linarith)) (by norm_num)
    have hpos : (0 : ℝ) < c1 + 0.055 := by linarith
    exact le_of_lt (div_pos hpos (by norm_num))

/-- The Lab component function is strictly increasing. -/
theorem labF_strictMono : StrictMono labF := by
  intro t1 t2 hlt
  unfold labF
  by_cases h1 : t1 > (216 / 24389 : ℝ)
  · have h2 : t2 > (216 / 24389 : ℝ) := lt_trans h1 hlt
    rw [if_pos h1, if_pos h2]
    exact Real.rpow_lt_rpow (by linarith [h1]) hlt (by norm_num)
  · by_cases h2 : t2 > (216 / 24389 : ℝ)
    · rw [if_neg h1, if_pos h2]
      push_neg at h1
      have hlin : (24389 / 27 * t1 + 16) / 116 ≤ (6 / 29 : ℝ) := by nlinarith
      have hδ : ((216 / 24389 : ℝ)) ^ ((1 : ℝ) / 3) = 6 / 29 := by
        rw [show (216 / 24389 : ℝ) = ((6 / 29 : ℝ)) ^ (3 : ℕ) by norm_num,
          ← Real.rpow_natCast ((6 : ℝ) / 29) 3, ← Real.rpow_mul (by norm_num)]
        norm_num
      have hgt : ((216 / 24389 : ℝ)) ^ ((1 : ℝ) / 3) < t2 ^ ((1 : ℝ) / 3) :=
        Real.rpow_lt_rpow (by norm_num) h2 (by norm_num)
      rw [hδ] at hgt
      linarith
    · rw [if_neg h1, if_neg h2]
      have hk : (0 : ℝ) < 24389 / 27 := by norm_num
      have := mul_lt_mul_of_pos_left hlt hk
      linarith

/-- The sRGB-to-XYZ matrix is injective (explicit inverse rows). -/
theorem xyzOfLinear_inj {r1 g1 b1 r2 g2 b2 : ℝ}
    (hX : 0.4124564 * r1 + 0.3575761 * g1 + 0.1804375 * b1 =
          0.4124564 * r2 + 0.3575761 * g2 + 0.1804375 * b2)
    (hY : 0.2126729 * r1 + 0.7151522 * g1 + 0.0721750 * b1 =
          0.2126729 * r2 + 0.7151522 * g2 + 0.0721750 * b2)
    (hZ : 0.0193339 * r1 + 0.1191920 * g1 + 0.9503041 * b1 =
          0.0193339 * r2 + 0.1191920 * g2 + 0.9503041 * b2) :
    r1 = r2 ∧ g1 = g2 ∧ b1 = b2 := by
  refine ⟨?_, ?_, ?_⟩
  · linear_combination
      (671009385184020000000 / 207072592935094650199 : ℝ) * hX -
      (318299327392010000000 / 207072592935094650199 : ℝ) * hY -
      (103232220070000000000 / 207072592935094650199 : ℝ) * hZ
  · linear_combination
      (-200708504596390000000 / 207072592935094650199 : ℝ) * hX +
      (388470447409990000000 / 207072592935094650199 : ℝ) * hY +
      (8605125723750000000 / 207072592935094650199 : ℝ) * hZ
  · linear_combination
      (11522227177220000000 / 207072592935094650199 : ℝ) * hX -
      (42248162669010000000 / 207072592935094650199 : ℝ) * hY +
      (218922355706390000000 / 207072592935094650199 : ℝ) * hZ

/-- The full sRGB-to-Lab conversion is injective. -/
theorem labOfSrgb_inj {c1 c2 : Srgb} (h : labOfSrgb c1 = labOfSrgb c2) :
    c1 = c2 := by
  simp only [labOfSrgb, Lab.mk.injEq] at h
  obtain ⟨hL, hA, hB⟩ := h
  have hfy : labF (((0.2126729 : ℝ) * srgbLinearize c1.red +
      0.7151522 * srgbLinearize c1.green + 0.0721750 * srgbLinearize c1.blue) / 1) =
      labF ((0.2126729 * srgbLinearize c2.red +
      0.7151522 * srgbLinearize c2.green + 0.0721750 * srgbLinearize c2.blue) / 1) := by
    linarith
  have hfx : labF (((0.4124564 : ℝ) * srgbLinearize c1.red +
      0.3575761 * srgbLinearize c1.green + 0.1804375 * srgbLinearize c1.blue) / 0.95047) =
      labF ((0.4124564 * srgbLinearize c2.red +
      0.3575761 * srgbLinearize c2.green + 0.1804375 * srgbLinearize c2.blue) / 0.95047) := by
    linarith
  have hfz : labF (((0.0193339 : ℝ) * srgbLinearize c1.red +
      0.1191920 * srgbLinearize c1.green + 0.9503041 * srgbLinearize c1.blue) / 1.08883) =
      labF ((0.0193339 * srgbLinearize c2.red +
      0.1191920 * srgbLinearize c2.green + 0.9503041 * srgbLinearize c2.blue) / 1.08883) := by
    linarith
  have hY := labF_strictMono.injective hfy
  have hX := labF_strictMono.injective hfx
  have hZ := labF_strictMono.injective hfz
  rw [div_eq_div_iff (by norm_num) (by norm_num)] at hX hZ
  rw [div_one, div_one] at hY
  have hX' := mul_right_cancel₀ (by norm_num : (0.95047 : ℝ) ≠ 0) hX
  have hZ' := mul_right_cancel₀ (by norm_num : (1.08883 : ℝ) ≠ 0) hZ
  have hY' := hY
  obtain ⟨hr, hg, hb⟩ := xyzOfLinear_inj hX' hY' hZ'
  obtain ⟨r1, g1, b1⟩ := c1
  obtain ⟨r2, g2, b2⟩ := c2
  simp only at hr hg hb
  rw [Srgb.mk.injEq]
  exact ⟨srgbLinearize_strictMono.injective hr,
    srgbLinearize_strictMono.injective hg,
    srgbLinearize_strictMono.injective hb⟩

/-- The Lab distance of a color to itself is zero. -/
theorem color_similarity_self (a : Srgb) : color_similarity a a = 0 := by
  unfold color_similarity
  simp

/-- The Lab distance is symmetric. -/
theorem color_similarity_comm (a b : Srgb) :
    color_similarity a b = color_similarity b a := by
  unfold color_similarity
  ring_nf

/-- The Lab distance is zero exactly on equal colors. -/
theorem color_similarity_eq_zero_iff (a b : Srgb) :
    color_similarity a b = 0 ↔ a = b := by
  constructor
  · intro h
    unfold color_similarity at h
    have hnn : (0 : ℝ) ≤ ((labOfSrgb a).l - (labOfSrgb b).l) ^ 2 +
        ((labOfSrgb a).a - (labOfSrgb b).a) ^ 2 +
        ((labOfSrgb a).b - (labOfSrgb b).b) ^ 2 := by positivity
    have hsum := (Real.sqrt_eq_zero hnn).1 h
    have h1 : (labOfSrgb a).l = (labOfSrgb b).l := by
      nlinarith [sq_nonneg ((labOfSrgb a).l - (labOfSrgb b).l),
        sq_nonneg ((labOfSrgb a).a - (labOfSrgb b).a),
        sq_nonneg ((labOfSrgb a).b - (labOfSrgb b).b)]
    have h2 : (labOfSrgb a).a = (labOfSrgb b).a := by
      nlinarith [sq_nonneg ((labOfSrgb a).l - (labOfSrgb b).l),
        sq_nonneg ((labOfSrgb a).a - (labOfSrgb b).a),
        sq_nonneg ((labOfSrgb a).b - (labOfSrgb b).b)]
    have h3 : (labOfSrgb a).b = (labOfSrgb b).b := by
      nlinarith [sq_nonneg ((labOfSrgb a).l - (labOfSrgb b).l),
        sq_nonneg ((labOfSrgb a).a - (labOfSrgb b).a),
        sq_nonneg ((labOfSrgb a).b - (labOfSrgb b).b)]
    have hlab : labOfSrgb a = labOfSrgb b := by
      rw [show labOfSrgb a = Lab.mk (labOfSrgb a).l (labOfSrgb a).a (labOfSrgb a).b from rfl,
        show labOfSrgb b = Lab.mk (labOfSrgb b).l (labOfSrgb b).a (labOfSrgb b).b from rfl,
        h1, h2, h3]
    exact labOfSrgb_inj hlab
  · rintro rfl
    exact color_similarity_self a

/-! ### Blob separation: the extraction fold -/

theorem getD_set_self {α : Type} {l : List α} {i : ℕ} (hi : i < l.length)
    (a d : α) : (l.set i a).getD i d = a := by
  rw [List.getD_eq_getElem?_getD, List.getElem?_set_self hi]
  rfl

theorem getD_set_ne {α : Type} {l : List α} {i j : ℕ} (hij : i ≠ j)
    (a d : α) : (l.set i a).getD j d = l.getD j d := by
  rw [List.getD_eq_getElem?_getD, List.getElem?_set_ne hij,
    ← List.getD_eq_getElem?_getD]

theorem getD_append_left {α : Type} {l1 l2 : List α} {i : ℕ}
    (hi : i < l1.length) (d : α) : (l1 ++ l2).getD i d = l1.getD i d := by
  rw [List.getD_eq_getElem?_getD, List.getElem?_append, if_pos hi,
    ← List.getD_eq_getElem?_getD]

theorem getD_append_len {α : Type} {l : List α} (a d : α) :
    (l ++ [a]).getD l.length d = a := by
  rw [List.getD_eq_getElem?_getD, List.getElem?_append_right (le_refl _)]
  simp

/-- The label was already encountered in the processed pixel prefix. -/
def seenLabel (done : List ((ℕ × ℕ) × ℕ)) (M : ℕ) : Prop :=
  M ≠ 0 ∧ ∃ c, (c, M) ∈ done

/-- Invariant of the `extract_blobs` fold over the processed prefix
`done`: the labels seen so far are exactly `1..blobs.length`, all blobs
are full-size, and blob `i` holds 255 exactly at the processed pixels
labeled `i+1`. -/
def ExtractInv (w h : ℕ) (done : List ((ℕ × ℕ) × ℕ))
    (blobs : List GrayImage) : Prop :=
  (∀ M, seenLabel done M ↔ (1 ≤ M ∧ M ≤ blobs.length)) ∧
  (∀ b ∈ blobs, b.width = w ∧ b.height = h) ∧
  (∀ i, i < blobs.length → ∀ p q : ℕ,
    (blobs.getD i (zeroMask w h)).pix p q =
      if ((p, q), i + 1) ∈ done then 255 else 0)

theorem ExtractInv_step {w h : ℕ} {done : List ((ℕ × ℕ) × ℕ)}
    {blobs : List GrayImage} (inv : ExtractInv w h done blobs)
    (c : ℕ × ℕ) (M : ℕ)
    (hasc : 2 ≤ M → ∃ y ∈ done, y.2 = M - 1) :
    ExtractInv w h (done ++ [(c, M)]) (extractBlobsStep w h blobs (c, M)) := by
  obtain ⟨hseen, hdims, hcont⟩ := inv
  rcases Nat.eq_zero_or_pos M with rfl | hM1
  · -- background label: nothing happens
    rw [show extractBlobsStep w h blobs (c, 0) = blobs from rfl]
    refine ⟨?_, hdims, ?_⟩
    · intro M'
      rw [← hseen M']
      unfold seenLabel
      constructor
      · rintro ⟨hM0, c', hc'⟩
        rcases List.mem_append.1 hc' with hd | hs
        · exact ⟨hM0, c', hd⟩
        · rw [List.mem_singleton] at hs
          have h2 : M' = 0 := congrArg Prod.snd hs
          exact absurd h2 hM0
      · rintro ⟨hM0, c', hc'⟩
        exact ⟨hM0, c', List.mem_append_left _ hc'⟩
    · intro i hi p q
      rw [hcont i hi p q]
      have hiff : (((p, q), i + 1) ∈ done ++ [(c, 0)]) ↔ (((p, q), i + 1) ∈ done) := by
        rw [List.mem_append, List.mem_singleton]
        constructor
        · rintro (hd | hs)
          · exact hd
          · have h2 : i + 1 = 0 := congrArg Prod.snd hs
            omega
        · exact Or.inl
      by_cases hmem : ((p, q), i + 1) ∈ done
      · rw [if_pos hmem, if_pos (hiff.2 hmem)]
      · rw [if_neg hmem, if_neg (fun hx => hmem (hiff.1 hx))]
  · -- foreground label
    have hstep : extractBlobsStep w h blobs (c, M) =
        (if blobs.length ≤ M - 1 then blobs ++ [zeroMask w h] else blobs).set (M - 1)
          (blobPut ((if blobs.length ≤ M - 1 then blobs ++ [zeroMask w h] else blobs).getD
            (M - 1) (zeroMask w h)) c.1 c.2) := by
      unfold extractBlobsStep
      rw [if_neg (by omega)]
    by_cases hM : M ≤ blobs.length
    · -- label seen before: paint into the existing blob
      have hlt : M - 1 < blobs.length := by omega
      have hpush : ¬ blobs.length ≤ M - 1 := by omega
      rw [hstep, if_neg hpush]
      refine ⟨?_, ?_, ?_⟩
      · intro M'
        rw [List.length_set, ← hseen M']
        unfold seenLabel
        constructor
        · rintro ⟨hM0, c', hc'⟩
          rcases List.mem_append.1 hc' with hd | hs
          · exact ⟨hM0, c', hd⟩
          · rw [List.mem_singleton] at hs
            have hMM : M' = M := congrArg Prod.snd hs
            subst hMM
            exact (hseen M').2 ⟨hM1, hM⟩
        · rintro ⟨hM0, c', hc'⟩
          exact ⟨hM0, c', List.mem_append_left _ hc'⟩
      · intro b hb
        rcases List.mem_or_eq_of_mem_set hb with hold | rfl
        · exact hdims b hold
        · have hgd : blobs.getD (M - 1) (zeroMask w h) ∈ blobs := by
            rw [List.getD_eq_getElem?_getD, List.getElem?_eq_getElem hlt]
            exact List.getElem_mem hlt
          have hd := hdims _ hgd
          exact ⟨hd.1, hd.2⟩
      · intro i hi p q
        rw [List.length_set] at hi
        by_cases hic : M - 1 = i
        · subst hic
          have hM1' : M - 1 + 1 = M := by omega
          rw [getD_set_self hlt]
          show (if p = c.1 ∧ q = c.2 then 255 else
            (blobs.getD (M - 1) (zeroMask w h)).pix p q) = _
          rw [hcont (M - 1) hlt p q, hM1']
          by_cases hpq : p = c.1 ∧ q = c.2
          · rw [if_pos hpq]
            have hmem : ((p, q), M) ∈ done ++ [(c, M)] := by
              refine List.mem_append_right _ (List.mem_singleton.2 ?_)
              rw [hpq.1, hpq.2]
            rw [if_pos hmem]
          · rw [if_neg hpq]
            have hiff : (((p, q), M) ∈ done ++ [(c, M)]) ↔ (((p, q), M) ∈ done) := by
              rw [List.mem_append, List.mem_singleton]
              constructor
              · rintro (hd | hs)
                · exact hd
                · rw [Prod.mk.injEq] at hs
                  refine absurd ?_ hpq
                  exact ⟨congrArg Prod.fst hs.1, congrArg Prod.snd hs.1⟩
              · exact Or.inl
            by_cases hmem : ((p, q), M) ∈ done
            · rw [if_pos hmem, if_pos (hiff.2 hmem)]
            · rw [if_neg hmem, if_neg (fun hx => hmem (hiff.1 hx))]
        · rw [getD_set_ne hic, hcont i hi p q]
          have hiff : (((p, q), i + 1) ∈ done ++ [(c, M)]) ↔ (((p, q), i + 1) ∈ done) := by
            rw [List.mem_append, List.mem_singleton]
            constructor
            · rintro (hd | hs)
              · exact hd
              · have h2 : i + 1 = M := congrArg Prod.snd hs
                omega
            · exact Or.inl
          by_cases hmem : ((p, q), i + 1) ∈ done
          · rw [if_pos hmem, if_pos (hiff.2 hmem)]
          · rw [if_neg hmem, if_neg (fun hx => hmem (hiff.1 hx))]
    · -- fresh label: by the ascending hypothesis it must be length+1
      have hMeq : M = blobs.length + 1 := by
        rcases Nat.lt_or_ge M 2 with h2 | h2
        · omega
        · obtain ⟨y, hy, hy2⟩ := hasc h2
          have hy' : (y.1, M - 1) = y := by
            rw [← hy2]
          have hseen' : seenLabel done (M - 1) := ⟨by omega, y.1, by rw [hy']; exact hy⟩
          have := (hseen (M - 1)).1 hseen'
          omega
      have hpush : blobs.length ≤ M - 1 := by omega
      have hlt : M - 1 < (blobs ++ [zeroMask w h]).length := by
        rw [List.length_append, List.length_singleton]
        omega
      have hMi : M - 1 = blobs.length := by omega
      rw [hstep, if_pos hpush]
      refine ⟨?_, ?_, ?_⟩
      · intro M'
        rw [List.length_set, List.length_append, List.length_singleton]
        unfold seenLabel
        constructor
        · rintro ⟨hM0, c', hc'⟩
          rcases List.mem_append.1 hc' with hd | hs
          · have := (hseen M').1 ⟨hM0, c', hd⟩
            omega
          · rw [List.mem_singleton] at hs
            have hMM : M' = M := congrArg Prod.snd hs
            omega
        · rintro ⟨hM0, hM'⟩
          by_cases hMM : M' = M
          · subst hMM
            exact ⟨by omega, c, List.mem_append_right _ (List.mem_singleton.2 rfl)⟩
          · obtain ⟨_, c', hc'⟩ := (hseen M').2 ⟨by omega, by omega⟩
            exact ⟨by omega, c', List.mem_append_left _ hc'⟩
      · intro b hb
        rcases List.mem_or_eq_of_mem_set hb with hold | rfl
        · rcases List.mem_append.1 hold with hbb | hbz
          · exact hdims b hbb
          · rw [List.mem_singleton] at hbz
            subst hbz
            exact ⟨rfl, rfl⟩
        · rw [hMi, getD_append_len]
          exact ⟨rfl, rfl⟩
      · intro i hi p q
        rw [List.length_set, List.length_append, List.length_singleton] at hi
        by_cases hic : M - 1 = i
        · subst hic
          rw [getD_set_self hlt, hMi, getD_append_len]
          show (if p = c.1 ∧ q = c.2 then 255 else (zeroMask w h).pix p q) = _
          rw [← hMeq]
          by_cases hpq : p = c.1 ∧ q = c.2
          · rw [if_pos hpq]
            have hmem : ((p, q), M) ∈ done ++ [(c, M)] := by
              refine List.mem_append_right _ (List.mem_singleton.2 ?_)
              rw [hpq.1, hpq.2]
            rw [if_pos hmem]
          · rw [if_neg hpq]
            have hnmem : ¬ (((p, q), M) ∈ done ++ [(c, M)]) := by
              rw [List.mem_append, List.mem_singleton]
              rintro (hd | hs)
              · have := (hseen M).1 ⟨by omega, (p, q), hd⟩
                omega
              · rw [Prod.mk.injEq] at hs
                refine absurd ?_ hpq
                exact ⟨congrArg Prod.fst hs.1, congrArg Prod.snd hs.1⟩
            rw [if_neg hnmem]
            rfl
        · have hilt : i < blobs.length := by omega
          rw [getD_set_ne hic, getD_append_left hilt, hcont i hilt p q]
          have hiff : (((p, q), i + 1) ∈ done ++ [(c, M)]) ↔ (((p, q), i + 1) ∈ done) := by
            rw [List.mem_append, List.mem_singleton]
            constructor
            · rintro (hd | hs)
              · exact hd
              · have h2 : i + 1 = M := congrArg Prod.snd hs
                omega
            · exact Or.inl
          by_cases hmem : ((p, q), i + 1) ∈ done
          · rw [if_pos hmem, if_pos (hiff.2 hmem)]
          · rw [if_neg hmem, if_neg (fun hx => hmem (hiff.1 hx))]

/-- The fold preserves the invariant over the whole pixel stream, provided
every label `≥ 2` is preceded (in the combined stream) by its predecessor
label. -/
theorem extract_blobs_foldl {w h : ℕ} :
    ∀ (E done : List ((ℕ × ℕ) × ℕ)) (blobs : List GrayImage),
      (∀ pre x post, done ++ E = pre ++ x :: post → 2 ≤ x.2 →
        ∃ y ∈ pre, y.2 = x.2 - 1) →
      ExtractInv w h done blobs →
      ExtractInv w h (done ++ E) (E.foldl (extractBlobsStep w h) blobs) := by
  intro E
  induction E with
  | nil =>
    intro done blobs _ inv
    simpa using inv
  | cons x E' ih =>
    intro done blobs hP inv
    have hx : 2 ≤ x.2 → ∃ y ∈ done, y.2 = x.2 - 1 := fun h2 =>
      hP done x E' rfl h2
    have hstep := ExtractInv_step inv x.1 x.2 hx
    rw [List.foldl_cons]
    have hL : done ++ x :: E' = (done ++ [x]) ++ E' := by simp
    rw [hL]
    refine ih (done ++ [x]) (extractBlobsStep w h blobs x) ?_ ?_
    · intro pre z post heq h2
      exact hP pre z post (by rw [hL, heq]) h2
    · exact hstep

/-- Label first occurrences ascend in scan order: whenever a pixel carries
label `M ≥ 2`, some earlier pixel (row-major) carries label `M - 1`.  This
is how the two-pass labeling collaborator numbers components: final ids
are assigned consecutively in order of first appearance. -/
def ascendingLabels (m : GrayImage) : Prop :=
  ∀ pre x post, pixelList m = pre ++ x :: post → 2 ≤ x.2 →
    ∃ y ∈ pre, y.2 = x.2 - 1

theorem extract_blobs_inv (m : GrayImage) (hasc : ascendingLabels m) :
    ExtractInv m.width m.height (pixelList m) (extract_blobs m) := by
  have h0 : ExtractInv m.width m.height [] [] := by
    refine ⟨?_, ?_, ?_⟩
    · intro M
      unfold seenLabel
      simp
      omega
    · intro b hb
      exact absurd hb (List.not_mem_nil b)
    · intro i hi
      simp at hi
  have hfold := extract_blobs_foldl (pixelList m) [] []
    (fun pre x post heq h2 => hasc pre x post (by simpa using heq) h2) h0
  simpa [extract_blobs] using hfold

theorem seenLabel_pixelList (m : GrayImage) (M : ℕ) :
    seenLabel (pixelList m) M ↔
      (M ≠ 0 ∧ ∃ c ∈ rowMajor m.width m.height, m.pix c.1 c.2 = M) := by
  unfold seenLabel pixelList
  constructor
  · rintro ⟨h0, c, hc⟩
    rw [List.mem_map] at hc
    obtain ⟨c', hc', heq⟩ := hc
    rw [Prod.mk.injEq] at heq
    refine ⟨h0, c', hc', heq.2⟩
  · rintro ⟨h0, c, hc, hpix⟩
    exact ⟨h0, c, List.mem_map.2 ⟨c, hc, by rw [hpix]⟩⟩

theorem mem_pixelList_iff (m : GrayImage) (c : ℕ × ℕ) (M : ℕ)
    (hc : c ∈ rowMajor m.width m.height) :
    ((c, M) ∈ pixelList m) ↔ m.pix c.1 c.2 = M := by
  unfold pixelList
  rw [List.mem_map]
  constructor
  · rintro ⟨c', _, heq⟩
    rw [Prod.mk.injEq] at heq
    rw [← heq.1]
    exact heq.2
  · intro hpix
    exact ⟨c, hc, by rw [hpix]⟩

/-- The general behavior of `extract_blobs` on collaborator-shaped
component maps: with labels exactly `1..N` whose first occurrences ascend
in scan order, it returns `N` full-size blobs in label order, blob `i`
holding 255 exactly at the pixels labeled `i+1` (and 0 elsewhere), so the
foreground sets are pairwise disjoint. -/
theorem extract_blobs_spec (m : GrayImage) (N : ℕ)
    (hmax : ∀ c ∈ rowMajor m.width m.height, m.pix c.1 c.2 ≤ N)
    (hocc : ∀ M, 1 ≤ M → M ≤ N → ∃ c ∈ rowMajor m.width m.height,
      m.pix c.1 c.2 = M)
    (hasc : ascendingLabels m) :
    (extract_blobs m).length = N ∧
    (∀ b ∈ extract_blobs m, b.width = m.width ∧ b.height = m.height) ∧
    (∀ i, i < N → ∀ c ∈ rowMajor m.width m.height,
      ((extract_blobs m).getD i (zeroMask m.width m.height)).pix c.1 c.2 =
        if m.pix c.1 c.2 = i + 1 then 255 else 0) ∧
    (∀ i j, i < N → j < N → i ≠ j → ∀ c ∈ rowMajor m.width m.height,
      ¬ (((extract_blobs m).getD i (zeroMask m.width m.height)).pix c.1 c.2 = 255 ∧
        ((extract_blobs m).getD j (zeroMask m.width m.height)).pix c.1 c.2 = 255)) := by
  obtain ⟨hseen, hdims, hcont⟩ := extract_blobs_inv m hasc
  have hs2 : ∀ M, seenLabel (pixelList m) M ↔ (1 ≤ M ∧ M ≤ N) := by
    intro M
    rw [seenLabel_pixelList]
    constructor
    · rintro ⟨h0, c, hc, hpix⟩
      have := hmax c hc
      omega
    · rintro ⟨h1, hN⟩
      obtain ⟨c, hc, hpix⟩ := hocc M h1 hN
      exact ⟨by omega, c, hc, hpix⟩
  have hlen : (extract_blobs m).length = N := by
    have hA : N ≤ (extract_blobs m).length := by
      rcases Nat.eq_zero_or_pos N with rfl | hpos
      · omega
      · exact ((hseen N).1 ((hs2 N).2 ⟨hpos, le_refl N⟩)).2
    have hB : (extract_blobs m).length ≤ N := by
      rcases Nat.eq_zero_or_pos (extract_blobs m).length with hz | hpos
      · omega
      · exact ((hs2 _).1 ((hseen _).2 ⟨hpos, le_refl _⟩)).2
    omega
  have hcontent : ∀ i, i < N → ∀ c ∈ rowMajor m.width m.height,
      ((extract_blobs m).getD i (zeroMask m.width m.height)).pix c.1 c.2 =
        if m.pix c.1 c.2 = i + 1 then 255 else 0 := by
    intro i hi c hc
    have hi' : i < (extract_blobs m).length := by omega
    have := hcont i hi' c.1 c.2
    rw [this]
    have hmem := mem_pixelList_iff m (c.1, c.2) (i + 1) (by
      rcases c with ⟨p, q⟩
      exact hc)
    by_cases hp : m.pix c.1 c.2 = i + 1
    · rw [if_pos (hmem.2 hp), if_pos hp]
    · rw [if_neg (fun hx => hp (hmem.1 hx)), if_neg hp]
  refine ⟨hlen, hdims, hcontent, ?_⟩
  intro i j hi hj hij c hc
  rintro ⟨h255i, h255j⟩
  rw [hcontent i hi c hc] at h255i
  rw [hcontent j hj c hc] at h255j
  by_cases hpi : m.pix c.1 c.2 = i + 1
  · by_cases hpj : m.pix c.1 c.2 = j + 1
    · omega
    · rw [if_neg hpj] at h255j
      omega
  · rw [if_neg hpi] at h255i
    omega

/-! ### Claim theorems -/

/-- C1 counterexample: a single hough line at 21° folds to −69°, the
median is −69, and Strategy A returns 69 — an angle with absolute value
greater than 10° that is not replaced by 0, falsifying the claim that
both strategies clamp to [−10°, 10°]. -/
theorem deskew_angle_clamp_counterexample :
    compute_deskew_angle_for_rectangle 10 4 [21] = 69 ∧
    10 < |compute_deskew_angle_for_rectangle 10 4 [21]| ∧
    compute_deskew_angle_for_rectangle 10 4 [21] ≠ 0 := by
  refine ⟨by decide, by decide, by decide⟩

/-- The NaN path of Strategy B is reachable: on the two-point hull of a
1-pixel-tall blob (all points on one row) the tie-breaks make all three
relevant extremal points coincide, both legs of the chosen triangle are
0, `c = 0`, and the unclamped NaN angle (`none`) is returned. -/
theorem skew_angle_none_on_degenerate_hull (w h : ℕ) :
    (compute_skew_angle_and_rotation_center [⟨0, 0⟩, ⟨5, 0⟩] w h).1 = none := by
  classical
  simp only [compute_skew_angle_and_rotation_center]
  rw [if_neg (by decide)]
  have hfold : ([(⟨5, 0⟩ : Pt)]).foldl stepExtremal
      ((⟨0, 0⟩ : Pt), (⟨0, 0⟩ : Pt), (⟨0, 0⟩ : Pt), (⟨0, 0⟩ : Pt)) =
      ((⟨0, 0⟩ : Pt), (⟨5, 0⟩ : Pt), (⟨0, 0⟩ : Pt), (⟨0, 0⟩ : Pt)) := by
    decide
  rw [hfold]
  have hct : chooseTriangle ⟨0, 0⟩ ⟨0, 0⟩ ⟨0, 0⟩ =
      (1, ((0 : ℕ) : ℝ) - ((0 : ℕ) : ℝ), ((0 : ℕ) : ℝ) - ((0 : ℕ) : ℝ)) := by
    unfold chooseTriangle
    rw [if_neg (by decide)]
  dsimp only
  rw [hct]
  dsimp only
  rw [if_pos (show Real.sqrt ((((0 : ℕ) : ℝ) - ((0 : ℕ) : ℝ)) ^ 2 +
    (((0 : ℕ) : ℝ) - ((0 : ℕ) : ℝ)) ^ 2) = 0 from by norm_num)]

/-- C1 (amended): only Strategy B clamps, and only on its numeric path —
its final Deskew Result angle is either NaN (modeled `none`: the
degenerate-triangle division 0.0/0.0, which neither clamp comparison
catches) or a number in the closed interval [−10°, 10°]; Strategy A
applies no clamp at all and can return numeric angles outside that
interval. -/
theorem deskew_angle_clamped_strategyB (points : List Pt) (w h : ℕ) :
    (compute_skew_angle_and_rotation_center points w h).1 = none ∨
    ∃ x : ℝ, (compute_skew_angle_and_rotation_center points w h).1 = some x ∧
      |x| ≤ 10 := by
  classical
  rcases points with _ | ⟨p0, rest⟩
  · exact Or.inr ⟨0, rfl, by norm_num⟩
  · simp only [compute_skew_angle_and_rotation_center]
    by_cases hlen : (p0 :: rest).length < 2
    · rw [if_pos hlen]
      exact Or.inr ⟨0, rfl, by norm_num⟩
    · rw [if_neg hlen]
      split
      · exact Or.inl rfl
      · exact Or.inr ⟨_, rfl, clamp_abs_le _⟩

/-- C1 witness: the amended dichotomy applied to the empty hull, where
the angle is the numeric 0. -/
theorem deskew_angle_clamped_strategyB_witness :
    (compute_skew_angle_and_rotation_center [] 0 0).1 = none ∨
    ∃ x : ℝ, (compute_skew_angle_and_rotation_center [] 0 0).1 = some x ∧
      |x| ≤ 10 :=
  deskew_angle_clamped_strategyB [] 0 0

/-- C3: `compute_bounding_box` on an all-background W×H mask leaves
`left = W`, `top = H`, `right = bottom = 0`, so the unsigned subtractions
`right - left` and `bottom - top` underflow (the checked embedding
returns `none`; the Rust debug build panics). -/
theorem compute_bounding_box_allzero_underflow (W H : ℕ)
    (hW : 1 ≤ W) (_hH : 1 ≤ H) :
    compute_bounding_box (zeroMask W H) = none := by
  have hfold : ∀ (l : List (ℕ × ℕ)) (st : BBoxAcc),
      l.foldl (bboxStep (zeroMask W H)) st = st := by
    intro l
    induction l with
    | nil => intro st; rfl
    | cons c l ih =>
      intro st
      rw [List.foldl_cons]
      rw [show bboxStep (zeroMask W H) st c = st from rfl]
      exact ih st
  unfold compute_bounding_box
  rw [show (zeroMask W H).width = W from rfl, show (zeroMask W H).height = H from rfl]
  rw [hfold]
  dsimp only
  rw [show checkedSub (0 : ℕ) W = none from by unfold checkedSub; rw [if_neg (by omega)]]

/-- C3 witness at the concrete 1×1 all-background mask. -/
theorem compute_bounding_box_allzero_underflow_witness :
    1 ≤ 1 ∧ compute_bounding_box (zeroMask 1 1) = none :=
  ⟨by decide, compute_bounding_box_allzero_underflow 1 1 (by decide) (by decide)⟩

/-- C5 counterexample: with leftmost (0,5), topmost (3,0), bottommost
(1,8) the top vertical leg (5) is longer than the bottom one (3); the
code picks the top triangle (legs 3, 5, factor −1) while the
specification's "shorter vertical leg" rule picks the bottom triangle
(legs 1, 3, factor +1). -/
theorem chooseTriangle_counterexample :
    chooseTriangle ⟨0, 5⟩ ⟨3, 0⟩ ⟨1, 8⟩ ≠ chooseTriangleSpec ⟨0, 5⟩ ⟨3, 0⟩ ⟨1, 8⟩ := by
  unfold chooseTriangle chooseTriangleSpec
  rw [if_pos (by decide), if_neg (by decide)]
  intro hcontra
  have h1 : (-1 : ℝ) = 1 := congrArg Prod.fst hcontra
  norm_num at h1

/-- C5 (amended): Strategy B uses the triangle whose vertical leg is
strictly LONGER (the bottom triangle on ties), and the direction factor
is −1 exactly when the top triangle is chosen, +1 exactly when the
bottom one is. -/
theorem chooseTriangle_longer_leg (lm tm bm : Pt) :
    ((chooseTriangle lm tm bm).1 = -1 ↔ bm.y - lm.y < lm.y - tm.y) ∧
    ((chooseTriangle lm tm bm).1 = 1 ↔ lm.y - tm.y ≤ bm.y - lm.y) ∧
    (bm.y - lm.y < lm.y - tm.y →
      chooseTriangle lm tm bm =
        (-1, (tm.x : ℝ) - (lm.x : ℝ), (lm.y : ℝ) - (tm.y : ℝ))) ∧
    (lm.y - tm.y ≤ bm.y - lm.y →
      chooseTriangle lm tm bm =
        (1, (bm.x : ℝ) - (lm.x : ℝ), (bm.y : ℝ) - (lm.y : ℝ))) := by
  unfold chooseTriangle
  by_cases h : lm.y - tm.y > bm.y - lm.y
  · rw [if_pos h]
    exact ⟨⟨fun _ => by omega, fun _ => rfl⟩,
      ⟨fun h1 => absurd h1 (by norm_num), fun h1 => absurd h1 (by omega)⟩,
      fun _ => rfl,
      fun h1 => absurd h1 (by omega)⟩
  · rw [if_neg h]
    exact ⟨⟨fun h1 => absurd h1 (by norm_num), fun h1 => absurd h1 (by omega)⟩,
      ⟨fun _ => by omega, fun _ => rfl⟩,
      fun h1 => absurd h1 (by omega),
      fun _ => rfl⟩

/-- C5 witness: the amended selection rule evaluated at the
counterexample points. -/
theorem chooseTriangle_longer_leg_witness :
    chooseTriangle ⟨0, 5⟩ ⟨3, 0⟩ ⟨1, 8⟩ =
      (-1, ((3 : ℕ) : ℝ) - ((0 : ℕ) : ℝ), ((5 : ℕ) : ℝ) - ((0 : ℕ) : ℝ)) :=
  (chooseTriangle_longer_leg ⟨0, 5⟩ ⟨3, 0⟩ ⟨1, 8⟩).2.2.1 (by decide)

/-- C7 counterexample: the pHYs density embedded for 150 dpi is 5905,
not round(150 × 39.37) = 5906 — the `as u32` cast truncates. -/
theorem savedPpu_not_round :
    savedPpu 150 ≠ 5906 := by decide

/-- C7 (amended): the pixels-per-unit density embedded in a written PNG
for a resolved DPI value d is trunc(d × 39.37) — 5905 for d = 150 — and
an EXIF resolution in centimeters is converted by truncating ×2.54: an
EXIF value of 10 yields 25. -/
theorem dpi_conversion_truncates :
    savedPpu 150 = 5905 ∧ (Dpi.mk 150 150).x_in_meters = 5905 ∧
    (Dpi.mk 150 150).y_in_meters = 5905 ∧ exifCmToDpi 10 = 25 ∧
    (Dpi.from_centimeter 10 10).x = 25 := by
  refine ⟨by decide, by decide, by decide, by decide, by decide⟩

/-- C2: `flood_fill` replaces exactly the pixels reachable from the seed
through a 4-connected path of pixels whose original colors are within
`fuzz` Lab distance of the target color, writing each such pixel with the
replacement color exactly once; every other pixel keeps its original
value and is never written — in particular matching regions disconnected
from the seed are untouched. -/
theorem flood_fill_replaces_exactly_reachable (img : RgbaImage) (x y : ℤ)
    (target_color replacement_color : Rgba) (fuzz : ℝ) :
    (∀ c, floodReach img x y target_color fuzz c →
      (flood_fill img x y target_color replacement_color fuzz).pix c = replacement_color ∧
      floodFillWrites img x y target_color replacement_color fuzz c = 1) ∧
    (∀ c, ¬ floodReach img x y target_color fuzz c →
      (flood_fill img x y target_color replacement_color fuzz).pix c = img.pix c ∧
      floodFillWrites img x y target_color replacement_color fuzz c = 0) :=
  floodFillCharacterization img x y target_color replacement_color fuzz

/-- C2 witness: on a 1×1 image whose single pixel equals the target
color, the seed is reachable (similarity 0 ≤ fuzz 0) and is replaced,
written once. -/
theorem flood_fill_replaces_exactly_reachable_witness :
    (flood_fill ⟨1, 1, fun _ => ⟨0, 0, 0, 255⟩⟩ 0 0 ⟨0, 0, 0, 255⟩ ⟨5, 5, 5, 0⟩ 0).pix (0, 0) =
      ⟨5, 5, 5, 0⟩ ∧
    floodFillWrites ⟨1, 1, fun _ => ⟨0, 0, 0, 255⟩⟩ 0 0 ⟨0, 0, 0, 255⟩ ⟨5, 5, 5, 0⟩ 0 (0, 0) = 1 := by
  have hreach : floodReach ⟨1, 1, fun _ => ⟨0, 0, 0, 255⟩⟩ 0 0 ⟨0, 0, 0, 255⟩ 0 (0, 0) := by
    apply Reach.base
    refine ⟨by decide, ?_⟩
    show ¬ color_similarity (image_rgba_to_palette_srgb ⟨0, 0, 0, 255⟩)
      (image_rgba_to_palette_srgb ⟨0, 0, 0, 255⟩) > 0
    rw [color_similarity_self]
    norm_num
  exact (flood_fill_replaces_exactly_reachable ⟨1, 1, fun _ => ⟨0, 0, 0, 255⟩⟩ 0 0
    ⟨0, 0, 0, 255⟩ ⟨5, 5, 5, 0⟩ 0).1 (0, 0) hreach

/-- C6: `flood_fill` is idempotent — a second run with identical
parameters on the output of the first changes no pixel. -/
theorem flood_fill_idempotent (img : RgbaImage) (x y : ℤ)
    (target_color replacement_color : Rgba) (fuzz : ℝ) :
    flood_fill (flood_fill img x y target_color replacement_color fuzz) x y
        target_color replacement_color fuzz =
      flood_fill img x y target_color replacement_color fuzz :=
  flood_fill_idem_aux img x y target_color replacement_color fuzz

/-- C8: the Lab color distance is symmetric and zero exactly on equal
colors; in particular every color has distance 0 to itself. -/
theorem color_similarity_symm_definite (a b : Srgb) :
    color_similarity a b = color_similarity b a ∧
    (color_similarity a b = 0 ↔ a = b) ∧
    color_similarity a a = 0 :=
  ⟨color_similarity_comm a b, color_similarity_eq_zero_iff a b,
    color_similarity_self a⟩

/-- A 3×1 component map reading [2, 0, 1]: a genuine 4-connected labeling
(two singleton components separated by background) whose non-zero labels
are exactly {1, 2}, but where label 2 appears first in scan order. -/
def badComponentMap : GrayImage :=
  ⟨3, 1, fun x _ => if x = 0 then 2 else if x = 2 then 1 else 0⟩

/-- A 3×1 component map reading [1, 0, 2]: the same two components with
labels assigned in first-appearance order, as the labeling collaborator
numbers them. -/
def goodComponentMap : GrayImage :=
  ⟨3, 1, fun x _ => if x = 0 then 1 else if x = 2 then 2 else 0⟩

/-- C4 counterexample: on the map [2, 0, 1] the non-zero labels are
exactly 1..2, yet `extract_blobs` returns a single blob (the pixel
carrying label 2 is dropped because only one fresh blob is pushed when
label 2 is met first), falsifying the claimed label-count invariant. -/
theorem extract_blobs_label_count_counterexample :
    (∀ c ∈ rowMajor 3 1, badComponentMap.pix c.1 c.2 ≤ 2) ∧
    (∀ M ∈ [1, 2], ∃ c ∈ rowMajor 3 1, badComponentMap.pix c.1 c.2 = M) ∧
    (extract_blobs badComponentMap).length ≠ 2 := by
  refine ⟨by decide, by decide, by decide⟩

/-- C4 witness: the amended theorem applied to the collaborator-ordered
map [1, 0, 2] yields exactly 2 blobs. -/
theorem extract_blobs_spec_witness :
    (extract_blobs goodComponentMap).length = 2 := by
  have hasc : ascendingLabels goodComponentMap := by
    intro pre x post heq h2
    have hL : pixelList goodComponentMap =
        [((0, 0), 1), ((1, 0), 0), ((2, 0), 2)] := by decide
    rw [hL] at heq
    have hlen : pre.length ≤ 2 := by
      have := congrArg List.length heq
      simp at this
      omega
    rcases pre with _ | ⟨a, _ | ⟨b, _ | ⟨c, pre⟩⟩⟩
    · injection heq with h1 _
      rw [← h1] at h2
      simp at h2
    · injection heq with h1 heq
      injection heq with h2' _
      rw [← h2'] at h2
      simp at h2
    · injection heq with h1 heq
      injection heq with h2' heq
      injection heq with h3 _
      refine ⟨a, List.mem_cons_self a _, ?_⟩
      rw [← h1, ← h3]
      rfl
    · simp at hlen
  have hmax : ∀ c ∈ rowMajor 3 1, goodComponentMap.pix c.1 c.2 ≤ 2 := by decide
  have hocc : ∀ M, 1 ≤ M → M ≤ 2 → ∃ c ∈ rowMajor 3 1,
      goodComponentMap.pix c.1 c.2 = M := by
    intro M h1 h2
    interval_cases M
    · exact ⟨(0, 0), by decide, by decide⟩
    · exact ⟨(2, 0), by decide, by decide⟩
  exact (extract_blobs_spec goodComponentMap 2 hmax hocc hasc).1

/-- C9: the fill decision of `flood_fill` depends only on the R, G, B
channels — for images identical in RGB (alpha arbitrary) and targets with
equal RGB, the reachable set and the set of written pixel positions
coincide, because the conversion to the perceptual space drops the alpha
byte. -/
theorem flood_fill_alpha_noninterference (img1 img2 : RgbaImage) (x y : ℤ)
    (t1 t2 r1 r2 : Rgba) (fuzz : ℝ)
    (hw : img1.width = img2.width) (hh : img1.height = img2.height)
    (hrgb : ∀ c : Coord, (img1.pix c).r = (img2.pix c).r ∧
      (img1.pix c).g = (img2.pix c).g ∧ (img1.pix c).b = (img2.pix c).b)
    (ht : t1.r = t2.r ∧ t1.g = t2.g ∧ t1.b = t2.b) :
    (∀ c, floodReach img1 x y t1 fuzz c ↔ floodReach img2 x y t2 fuzz c) ∧
    (∀ c, floodFillWrites img1 x y t1 r1 fuzz c =
      floodFillWrites img2 x y t2 r2 fuzz c) := by
  classical
  have hsrgb : ∀ c : Coord, image_rgba_to_palette_srgb (img1.pix c) =
      image_rgba_to_palette_srgb (img2.pix c) := by
    intro c
    unfold image_rgba_to_palette_srgb
    rw [(hrgb c).1, (hrgb c).2.1, (hrgb c).2.2]
  have hst : image_rgba_to_palette_srgb t1 = image_rgba_to_palette_srgb t2 := by
    unfold image_rgba_to_palette_srgb
    rw [ht.1, ht.2.1, ht.2.2]
  have hgood : ffGood img1.width img1.height (floodMatch t1 fuzz) img1.pix =
      ffGood img2.width img2.height (floodMatch t2 fuzz) img2.pix := by
    funext c
    unfold ffGood floodMatch
    rw [hw, hh, hsrgb c, hst]
  have hiff : ∀ c, floodReach img1 x y t1 fuzz c ↔ floodReach img2 x y t2 fuzz c := by
    intro c
    unfold floodReach
    rw [hgood]
  refine ⟨hiff, ?_⟩
  intro c
  have h1 := floodFillCharacterization img1 x y t1 r1 fuzz
  have h2 := floodFillCharacterization img2 x y t2 r2 fuzz
  by_cases hr : floodReach img1 x y t1 fuzz c
  · rw [(h1.1 c hr).2, (h2.1 c ((hiff c).1 hr)).2]
  · rw [(h1.2 c hr).2, (h2.2 c (fun hx => hr ((hiff c).2 hx))).2]

/-- C9 witness: two 1×1 images equal in RGB but different in alpha, and
targets equal in RGB, write the same positions. -/
theorem flood_fill_alpha_noninterference_witness :
    floodFillWrites ⟨1, 1, fun _ => ⟨1, 2, 3, 0⟩⟩ 0 0 ⟨7, 7, 7, 0⟩ ⟨0, 0, 0, 0⟩ 0 (0, 0) =
      floodFillWrites ⟨1, 1, fun _ => ⟨1, 2, 3, 9⟩⟩ 0 0 ⟨7, 7, 7, 4⟩ ⟨9, 9, 9, 9⟩ 0 (0, 0) :=
  (flood_fill_alpha_noninterference ⟨1, 1, fun _ => ⟨1, 2, 3, 0⟩⟩
    ⟨1, 1, fun _ => ⟨1, 2, 3, 9⟩⟩ 0 0 ⟨7, 7, 7, 0⟩ ⟨7, 7, 7, 4⟩ ⟨0, 0, 0, 0⟩ ⟨9, 9, 9, 9⟩ 0
    rfl rfl (fun _ => ⟨rfl, rfl, rfl⟩) ⟨rfl, rfl, rfl⟩).2 (0, 0)

open Classical in
/-- C10: the flood-fill loop terminates for every finite image, every
seed (including out-of-bounds seeds) and every fuzz threshold: with fuel
equal to the measure the stack drains, and any extra fuel leaves the
final state unchanged. -/
theorem flood_fill_terminates (img : RgbaImage) (x y : ℤ)
    (target_color replacement_color : Rgba) (fuzz : ℝ) :
    ∃ n : ℕ,
      (ffRun img.width img.height (floodMatch target_color fuzz) replacement_color n
        (ffInit img x y)).stack = [] ∧
      ∀ m : ℕ, n ≤ m →
        ffRun img.width img.height (floodMatch target_color fuzz) replacement_color m
          (ffInit img x y) =
        ffRun img.width img.height (floodMatch target_color fuzz) replacement_color n
          (ffInit img x y) := by
  refine ⟨ffMeasure img.width img.height (ffInit img x y),
    ffRun_stack_nil _ _ (le_refl _), ?_⟩
  intro m hm
  have hsplit : m = ffMeasure img.width img.height (ffInit img x y) +
      (m - ffMeasure img.width img.height (ffInit img x y)) := by omega
  rw [hsplit, ffRun_add]
  exact ffRun_nil (ffRun_stack_nil _ _ (le_refl _)) _

open Classical in
/-- C10 witness: the termination statement at a concrete 1×1 image. -/
theorem flood_fill_terminates_witness :
    ∃ n : ℕ,
      (ffRun (RgbaImage.mk 1 1 (fun _ => ⟨0, 0, 0, 0⟩)).width
        (RgbaImage.mk 1 1 (fun _ => ⟨0, 0, 0, 0⟩)).height
        (floodMatch ⟨0, 0, 0, 0⟩ 0) ⟨1, 1, 1, 1⟩ n
        (ffInit ⟨1, 1, fun _ => ⟨0, 0, 0, 0⟩⟩ 0 0)).stack = [] ∧
      ∀ m : ℕ, n ≤ m →
        ffRun (RgbaImage.mk 1 1 (fun _ => ⟨0, 0, 0, 0⟩)).width
          (RgbaImage.mk 1 1 (fun _ => ⟨0, 0, 0, 0⟩)).height
          (floodMatch ⟨0, 0, 0, 0⟩ 0) ⟨1, 1, 1, 1⟩ m
          (ffInit ⟨1, 1, fun _ => ⟨0, 0, 0, 0⟩⟩ 0 0) =
        ffRun (RgbaImage.mk 1 1 (fun _ => ⟨0, 0, 0, 0⟩)).width
          (RgbaImage.mk 1 1 (fun _ => ⟨0, 0, 0, 0⟩)).height
          (floodMatch ⟨0, 0, 0, 0⟩ 0) ⟨1, 1, 1, 1⟩ n
          (ffInit ⟨1, 1, fun _ => ⟨0, 0, 0, 0⟩⟩ 0 0) :=
  flood_fill_terminates ⟨1, 1, fun _ => ⟨0, 0, 0, 0⟩⟩ 0 0 ⟨0, 0, 0, 0⟩ ⟨1, 1, 1, 1⟩ 0
